import Mathlib

/-!
# Verification of the Cloud SDK debug API layer

A shallow embedding of `googlecloudsdk/api_lib/debug/debug.py` — the
log-expression codec (`SplitLogExpressions` / `MergeLogExpressions`), the
debuggee resolution algorithm (`Debugger.DefaultDebuggee`,
`Debugger.FindDebuggee`, `_FindLatestMinorVersion`), and the breakpoint
matching logic (`Debuggee.ListMatchingBreakpoints`,
`_BREAKPOINT_ID_PATTERN`) — together with theorems settling the spec
claims about this code.

Strings are modelled as `List Char` (or `String` for record fields);
Python's fallible operations (`raise`) are modelled with `Option` /
`Except`.  Regular-expression searching of caller-supplied patterns is
abstracted as a boolean-valued function parameter; the two concrete
regexes in the source (`_BREAKPOINT_ID_PATTERN` and `\$([0-9]+)`) are
translated explicitly.
-/

deriving instance DecidableEq for Except

namespace Debug

/-! ## SplitLogExpressions

The state of the character loop of `SplitLogExpressions` (debug.py
lines 60-105): accumulated expression list, output format, current
expression text, brace nesting depth and the pending-separator flag. -/

structure SplitState where
  expressions : List (List Char)
  logFormat : List Char
  currentExpression : List Char
  braceCount : Nat
  needSeparator : Bool
  deriving Repr, DecidableEq

def initSplitState : SplitState :=
  { expressions := [], logFormat := [], currentExpression := [],
    braceCount := 0, needSeparator := false }

/-- Decimal digits of a natural number, most significant first, with a
fuel argument to keep the recursion structural. -/
def natToDigitsAux : Nat → Nat → List Char
  | 0, _ => []
  | fuel + 1, n =>
    if n < 10 then [Nat.digitChar n]
    else natToDigitsAux fuel (n / 10) ++ [Nat.digitChar (n % 10)]

/-- Decimal digits of a natural number, most significant first
(the digits of Python's `'{0}'.format(i)`). -/
def natToDigits (n : Nat) : List Char :=
  natToDigitsAux (n + 1) n

/-- One iteration of the `for c in format_string` loop of
`SplitLogExpressions` (debug.py lines 65-101), translated branch by
branch. -/
def splitStep (s : SplitState) (c : Char) : SplitState :=
  -- if need_separator and c.isdigit(): log_format += ' '
  let logFormat := if s.needSeparator && c.isDigit then s.logFormat ++ [' '] else s.logFormat
  -- need_separator = False
  let s := { s with logFormat := logFormat, needSeparator := false }
  if c = '{' then
    -- nested brace: append to the expression; top level: start a new one
    { s with
      currentExpression := if s.braceCount ≠ 0 then s.currentExpression ++ [c] else [],
      braceCount := s.braceCount + 1 }
  else if s.braceCount ≠ 0 then
    if c ≠ '}' then
      { s with currentExpression := s.currentExpression ++ [c] }
    else if s.braceCount = 1 then
      -- finish processing the expression
      let i := if s.currentExpression ∈ s.expressions
               then s.expressions.indexOf s.currentExpression
               else s.expressions.length
      let expressions := if s.currentExpression ∈ s.expressions
                         then s.expressions
                         else s.expressions ++ [s.currentExpression]
      { s with
        expressions := expressions,
        logFormat := s.logFormat ++ '$' :: natToDigits i,
        braceCount := 0,
        needSeparator := true }
    else
      -- closing a nested brace
      { s with currentExpression := s.currentExpression ++ [c], braceCount := s.braceCount - 1 }
  else
    -- not in or starting an expression
    { s with logFormat := s.logFormat ++ [c] }

def splitLoop (s : SplitState) : List Char → SplitState
  | [] => s
  | c :: cs => splitLoop (splitStep s c) cs

/-- `SplitLogExpressions` (debug.py lines 41-105).  Returns `none` when
the Python code raises `ValueError` for an unbalanced `{`. -/
def splitLogExpressions (formatString : List Char) : Option (List Char × List (List Char)) :=
  let s := splitLoop initSplitState formatString
  if s.braceCount ≠ 0 then none else some (s.logFormat, s.expressions)

/-! ## Brace depth

An independent fold computing only the brace nesting depth, for stating
when `SplitLogExpressions` fails: `{` increments, `}` decrements only at
positive depth (the depth never goes negative), all other characters are
neutral. -/

def depthStep (d : Nat) (c : Char) : Nat :=
  if c = '{' then d + 1
  else if d ≠ 0 ∧ c = '}' then d - 1
  else d

def braceDepth (l : List Char) : Nat := l.foldl depthStep 0

/-- `true` when no `$` in the list is immediately followed by a decimal
digit, i.e. the input contains no readable `$N` token of its own. -/
def dollarDigitFree : List Char → Bool
  | [] => true
  | c :: cs =>
    (if c = '$' then match cs with
      | d :: _ => !d.isDigit
      | [] => true
     else true) && dollarDigitFree cs

/-- `true` when scanning from depth `d` never meets a `}` at depth 0,
i.e. the input has no unmatched top-level closing brace. -/
def strayFreeAux : Nat → List Char → Bool
  | _, [] => true
  | d, c :: cs =>
    if c = '{' then strayFreeAux (d + 1) cs
    else if c = '}' then (if d = 0 then false else strayFreeAux (d - 1) cs)
    else strayFreeAux d cs

def strayCloseFree (l : List Char) : Bool := strayFreeAux 0 l

/-! ## Separator-space injection

The reference transformation for the round-trip claim: the input with a
single space inserted wherever `SplitLogExpressions` injects one, namely
after a top-level `{...}` group that is immediately followed by a
digit. -/

structure InjState where
  out : List Char
  depth : Nat
  needSep : Bool
  deriving Repr, DecidableEq

def injStep (s : InjState) (c : Char) : InjState :=
  { out := s.out ++ (if s.needSep && c.isDigit then [' ', c] else [c]),
    depth := depthStep s.depth c,
    needSep := decide (s.depth = 1 ∧ c = '}') }

def spaceInject (l : List Char) : List Char :=
  (l.foldl injStep { out := [], depth := 0, needSep := false }).out

/-! ## The `\$([0-9]+)` scanner

`MergeLogExpressions` first rewrites every maximal `$digits` run via
`re.sub(r'\$([0-9]+)', r'{{{\1}}}', log_format)`.  The scanner state is
`none` outside a run, `some ds` after a `$` followed by the digits `ds`
read so far (so `some []` is a bare `$`). -/

def subNext (st : Option (List Char)) (c : Char) : Option (List Char) :=
  if c = '$' then some []
  else if c.isDigit then
    match st with
    | some ds => some (ds ++ [c])
    | none => none
  else none

def subStA (st : Option (List Char)) (l : List Char) : Option (List Char) :=
  l.foldl subNext st

/-- Text a finishing scanner state contributes: a bare `$` stays `$`, a
completed `$ds` run becomes `{{{ds}}}`. -/
def flushSub : Option (List Char) → List Char
  | none => []
  | some [] => ['$']
  | some (d :: ds) => '{' :: '{' :: '{' :: (d :: ds ++ ['}', '}', '}'])

/-- Output of the substitution scanner for the consumed characters, not
counting the unflushed final state. -/
def subPre : Option (List Char) → List Char → List Char
  | _, [] => []
  | st, c :: cs =>
    if c = '$' then flushSub st ++ subPre (some []) cs
    else if c.isDigit then
      match st with
      | some ds => subPre (some (ds ++ [c])) cs
      | none => c :: subPre none cs
    else flushSub st ++ c :: subPre none cs

/-- `re.sub(r'\$([0-9]+)', r'{{{\1}}}', l)`. -/
def subDollar (l : List Char) : List Char :=
  subPre none l ++ flushSub (subStA none l)

/-- Digit strings of the maximal `$digits` runs a finishing state
contributes (a bare `$` contributes nothing). -/
def flushTok : Option (List Char) → List (List Char)
  | some (d :: ds) => [d :: ds]
  | _ => []

/-- The digit strings of the maximal `$digits` runs of the consumed
characters, not counting the unflushed final state. -/
def tokensPre : Option (List Char) → List Char → List (List Char)
  | _, [] => []
  | st, c :: cs =>
    if c = '$' then flushTok st ++ tokensPre (some []) cs
    else if c.isDigit then
      match st with
      | some ds => tokensPre (some (ds ++ [c])) cs
      | none => tokensPre none cs
    else flushTok st ++ tokensPre none cs

def digitVal (c : Char) : Nat := c.toNat - 48

def parseNat (ds : List Char) : Nat :=
  ds.foldl (fun a c => 10 * a + digitVal c) 0

/-- The indices of the `$N` tokens of a string, in order of occurrence,
exactly as the regex `\$([0-9]+)` matches them. -/
def dollarTokens (l : List Char) : List Nat :=
  (tokensPre none l ++ flushTok (subStA none l)).map parseNat

/-! ## Python `str.format`

`MergeLogExpressions` ends with `.format(*expressions)`.  The model
covers the field forms reachable from the regex substitution and from
plain text: literal text, `{{` and `}}` escapes, and fields that are a
bare `{}` or a decimal index `{N}` with no conversion or format spec
(any other field syntax is modelled as failure).  The automatic /
manual numbering mode is tracked as in CPython: mixing the two raises. -/

inductive FmtMode
  | start
  | manual
  | auto : Nat → FmtMode
  deriving Repr, DecidableEq

inductive FmtPhase
  | text
  | openBrace
  | closeBrace
  | field : List Char → FmtPhase
  deriving Repr, DecidableEq

def resolveField (args : List (List Char)) (ds : List Char) (m : FmtMode) :
    Option (List Char × FmtMode) :=
  match ds with
  | [] =>
    match m with
    | .manual => none
    | .start => (args[0]?).map (fun v => (v, FmtMode.auto 1))
    | .auto k => (args[k]?).map (fun v => (v, FmtMode.auto (k + 1)))
  | _ =>
    match m with
    | .auto _ => none
    | _ => (args[parseNat ds]?).map (fun v => (v, FmtMode.manual))

def pyFmtGo (args : List (List Char)) : FmtPhase → FmtMode → List Char →
    Option (List Char × FmtMode)
  | .text, m, [] => some ([], m)
  | .openBrace, _, [] => none
  | .closeBrace, _, [] => none
  | .field _, _, [] => none
  | .text, m, c :: cs =>
    if c = '{' then pyFmtGo args .openBrace m cs
    else if c = '}' then pyFmtGo args .closeBrace m cs
    else (pyFmtGo args .text m cs).map (fun p => (c :: p.1, p.2))
  | .openBrace, m, c :: cs =>
    if c = '{' then (pyFmtGo args .text m cs).map (fun p => ('{' :: p.1, p.2))
    else if c.isDigit then pyFmtGo args (.field [c]) m cs
    else if c = '}' then
      (resolveField args [] m).bind fun vm =>
        (pyFmtGo args .text vm.2 cs).map (fun p => (vm.1 ++ p.1, p.2))
    else none
  | .closeBrace, m, c :: cs =>
    if c = '}' then (pyFmtGo args .text m cs).map (fun p => ('}' :: p.1, p.2))
    else none
  | .field ds, m, c :: cs =>
    if c.isDigit then pyFmtGo args (.field (ds ++ [c])) m cs
    else if c = '}' then
      (resolveField args ds m).bind fun vm =>
        (pyFmtGo args .text vm.2 cs).map (fun p => (vm.1 ++ p.1, p.2))
    else none

/-- `MergeLogExpressions` (debug.py lines 108-123):
`re.sub(r'\$([0-9]+)', r'{{{\1}}}', log_format).format(*expressions)`.
`none` models the uncaught exceptions `str.format` can raise. -/
def mergeLogExpressions (logFormat : List Char) (expressions : List (List Char)) :
    Option (List Char) :=
  (pyFmtGo expressions .text .start (subDollar logFormat)).map (·.1)

/-! ## Debuggees

Only the fields the resolution algorithm reads are modelled: the target
ID, the description, and the label mapping (an association list;
`labels` is built from the message's key/value pairs). -/

structure Debuggee where
  targetId : String
  description : String
  labels : List (String × String)
  deriving Repr, DecidableEq

/-- `labels.get(key, None)`. -/
def labelGet (d : Debuggee) (key : String) : Option String :=
  (d.labels.find? (fun p => p.1 == key)).map (·.2)

/-- Python truthiness of `labels.get(key, None)`-style values: `None`
and the empty string are falsy. -/
def pyTruthy : Option String → Bool
  | none => false
  | some s => !(s == "")

namespace Debuggee

def module (d : Debuggee) : Option String := labelGet d "module"

def version (d : Debuggee) : Option String := labelGet d "version"

def minorversion (d : Debuggee) : Option String := labelGet d "minorversion"

/-- `x or 'default'` for an optional label value. -/
def orDefault (o : Option String) : String :=
  match o with
  | some s => if s == "" then "default" else s
  | none => "default"

/-- The `name` property (debug.py lines 415-421). -/
def name (d : Debuggee) : String :=
  if pyTruthy d.module || pyTruthy d.version || pyTruthy d.minorversion then
    orDefault d.module ++ "-" ++ orDefault d.version
  else d.targetId

end Debuggee

/-- The whitespace `str.strip()` removes. -/
def pyIsSpace (c : Char) : Bool :=
  c = ' ' || c = '\t' || c = '\n' || c = '\r' || c = '\x0b' || c = '\x0c'

/-- `s.strip()`. -/
def pyStrip (l : List Char) : List Char :=
  ((l.dropWhile pyIsSpace).reverse.dropWhile pyIsSpace).reverse

/-- Python `int(s)` on a string: strip surrounding whitespace, then an
optional sign followed by at least one decimal digit; anything else
raises `ValueError` (`none`). -/
def pyInt (s : String) : Option Int :=
  match pyStrip s.toList with
  | '-' :: ds => if !ds.isEmpty && ds.all Char.isDigit then some (-(parseNat ds : Int)) else none
  | '+' :: ds => if !ds.isEmpty && ds.all Char.isDigit then some (parseNat ds : Int) else none
  | ds => if !ds.isEmpty && ds.all Char.isDigit then some (parseNat ds : Int) else none

/-- The numeric value of a debuggee's minor version, for stating
maximality: the parsed `minorversion` label, or 0 when the label is
absent or unparsable. -/
def minorIntVal (d : Debuggee) : Int :=
  ((Debuggee.minorversion d).bind (fun s => pyInt s)).getD 0

/-- Errors the resolution layer can surface.  `valueError` carries the
uncaught `ValueError` `int()` raises on a malformed minor version. -/
inductive ResolveError
  | noDebuggee (pattern : Option String)
  | multipleDebuggees (pattern : Option String) (candidates : List Debuggee)
  | valueError (msg : String)
  deriving Repr, DecidableEq

/-- The loop of `_FindLatestMinorVersion` (debug.py lines 724-741) with
its three loop variables `best`, `best_version` and `name`.  Python's
`if not name` latches the first non-empty name; `if not minor_version`
tests string truthiness of the label (so a label `'0'` passes and is
parsed to the numeric value 0); `if not best_version` is also true when
the best version so far is the number 0. -/
def flmvGo : Option Debuggee → Option Int → String → List Debuggee →
    Except String (Option Debuggee)
  | best, _, _, [] => .ok best
  | best, bestVersion, nm, d :: rest =>
    if nm ≠ "" ∧ nm ≠ d.name then .ok none
    else
      let nm := if nm = "" then d.name else nm
      if !pyTruthy d.minorversion then .ok none
      else
        match pyInt ((d.minorversion).getD "") with
        | none => .error "invalid literal for int()"
        | some mv =>
          let takeNew := match bestVersion with
            | none => true
            | some bv => bv == 0 || mv > bv
          if takeNew then flmvGo (some d) (some mv) nm rest
          else flmvGo best bestVersion nm rest

/-- The loop's `if not best_version or minor_version > best_version`
condition, named for the proofs. -/
def flmvTake (bestVersion : Option Int) (mv : Int) : Bool :=
  match bestVersion with
  | none => true
  | some bv => bv == 0 || mv > bv

/-- `_FindLatestMinorVersion` (debug.py lines 713-741). -/
def findLatestMinorVersion (debuggees : List Debuggee) : Except String (Option Debuggee) :=
  if debuggees.isEmpty then .ok none
  else flmvGo none none "" debuggees

/-- `Debugger.DefaultDebuggee` (debug.py lines 254-306), translated
check for check; the listing call is abstracted into the `debuggees`
argument. -/
def defaultDebuggee (debuggees : List Debuggee) : Except ResolveError Debuggee :=
  if h : debuggees.length = 1 then .ok (debuggees.get ⟨0, by omega⟩)
  else if debuggees.isEmpty then .error (.noDebuggee none)
  else match findLatestMinorVersion debuggees with
  | .error e => .error (.valueError e)
  | .ok (some latest) => .ok latest
  | .ok none =>
    let byModule := debuggees.filter (fun d => !pyTruthy d.module)
    if byModule.isEmpty then .error (.multipleDebuggees none debuggees)
    else if h2 : byModule.length = 1 then .ok (byModule.get ⟨0, by omega⟩)
    else match findLatestMinorVersion byModule with
    | .error e => .error (.valueError e)
    | .ok (some latest) => .ok latest
    | .ok none =>
      let byVersion := byModule.filter (fun d => !pyTruthy d.version)
      if h3 : byVersion.length = 1 then .ok (byVersion.get ⟨0, by omega⟩)
      else if byVersion.isEmpty then .error (.multipleDebuggees none debuggees)
      else match findLatestMinorVersion byVersion with
      | .error e => .error (.valueError e)
      | .ok (some latest) => .ok latest
      | .ok none => .error (.noDebuggee none)

/-- `Debugger.FindDebuggee` (debug.py lines 308-342).  `searchP`
abstracts `re.compile(pattern).search`: `searchP t` is true when the
compiled pattern finds a match anywhere in `t`. -/
def findDebuggee (pattern : String) (searchP : String → Bool)
    (allDebuggees : List Debuggee) : Except ResolveError Debuggee :=
  if pattern = "" then defaultDebuggee allDebuggees
  else
    let debuggees := allDebuggees.filter (fun d => d.targetId == pattern || searchP d.name)
    let debuggees := if debuggees.isEmpty
      then allDebuggees.filter (fun d => searchP d.description)
      else debuggees
    if h : debuggees.length = 1 then .ok (debuggees.get ⟨0, by omega⟩)
    else if debuggees.isEmpty then .error (.noDebuggee (some pattern))
    else match findLatestMinorVersion debuggees with
    | .error e => .error (.valueError e)
    | .ok (some best) => .ok best
    | .ok none => .error (.multipleDebuggees (some pattern) debuggees)

/-! ## Spec-side resolver definitions

For the refinement claims, the same two resolution procedures written
from the words of the spec (§4.2): the step list of `ResolveDefault`
and of `Resolve`, applied in order until one yields a unique result. -/

/-- `ResolveDefault(debuggees)` as the spec states it: zero debuggees
fail, one is returned, otherwise the six disambiguation steps run in
order. -/
def defaultDebuggeeSpec (debuggees : List Debuggee) : Except ResolveError Debuggee :=
  match debuggees with
  | [] => .error (.noDebuggee none)
  | [d] => .ok d
  | _ =>
    -- step 1: LatestMinorVersion over all debuggees
    match findLatestMinorVersion debuggees with
    | .error e => .error (.valueError e)
    | .ok (some latest) => .ok latest
    | .ok none =>
      -- step 2: filter to debuggees with no module label
      let byModule := debuggees.filter (fun d => !pyTruthy d.module)
      if byModule.isEmpty then .error (.multipleDebuggees none debuggees)
      else if h2 : byModule.length = 1 then .ok (byModule.get ⟨0, by omega⟩)
      else
        -- step 3: LatestMinorVersion over the filtered set
        match findLatestMinorVersion byModule with
        | .error e => .error (.valueError e)
        | .ok (some latest) => .ok latest
        | .ok none =>
          -- step 4: filter further to no version label
          let byVersion := byModule.filter (fun d => !pyTruthy d.version)
          if byVersion.isEmpty then .error (.multipleDebuggees none debuggees)
          else if h3 : byVersion.length = 1 then .ok (byVersion.get ⟨0, by omega⟩)
          else
            -- step 5: LatestMinorVersion over that set
            match findLatestMinorVersion byVersion with
            | .error e => .error (.valueError e)
            | .ok (some latest) => .ok latest
            -- step 6: no step yielded a result
            | .ok none => .error (.noDebuggee none)

/-- `Resolve(debuggees, pattern)` as the spec states it, for a
non-empty pattern: candidate set by exact target ID or name search,
description fallback, then the zero/one/many case split. -/
def findDebuggeeSpec (pattern : String) (searchP : String → Bool)
    (allDebuggees : List Debuggee) : Except ResolveError Debuggee :=
  let byName := allDebuggees.filter (fun d => d.targetId == pattern || searchP d.name)
  let candidates := if byName.isEmpty
    then allDebuggees.filter (fun d => searchP d.description)
    else byName
  match candidates with
  | [] => .error (.noDebuggee (some pattern))
  | [d] => .ok d
  | _ =>
    match findLatestMinorVersion candidates with
    | .error e => .error (.valueError e)
    | .ok (some best) => .ok best
    | .ok none => .error (.multipleDebuggees (some pattern) candidates)

/-! ## Breakpoints

Only the fields `ListMatchingBreakpoints`, `_MatchesIdOrRegexp`,
`_FilteredDictListWithInfo` and the reformatting part of
`AddTargetInfo` read are modelled.  `action = none` is an unset action
enum; `location = none` an unset location message. -/

inductive BpAction
  | capture
  | log
  deriving Repr, DecidableEq

structure Breakpoint where
  id : String
  action : Option BpAction
  location : Option (String × Nat)
  logMessageFormat : Option String
  expressions : List String
  deriving Repr, DecidableEq

/-- The `_MessageDict` `AddTargetInfo` produces, restricted to the
fields the claims are about.  The identity fields and the console URL
added from the debuggee context do not vary per breakpoint and are
omitted.  `expressionsHidden` records the `HideExistingField` call. -/
structure DecoratedBreakpoint where
  id : String
  action : Option BpAction
  location : Option String
  logMessageFormat : Option String
  expressions : List String
  expressionsHidden : Bool
  deriving Repr, DecidableEq

/-- The reformatting part of `Debuggee.AddTargetInfo` (debug.py lines
633-657): humanize the location to `path:line` and decode the log
format through the `$N → {expression}` substitution.  `none` models the
uncaught exception `fmt.format(*message.expressions)` raises on a
stray brace or an out-of-range index. -/
def addTargetInfo (bp : Breakpoint) : Option DecoratedBreakpoint :=
  let loc := bp.location.map (fun pl => pl.1 ++ ":" ++ toString pl.2)
  if pyTruthy bp.logMessageFormat then
    match mergeLogExpressions (bp.logMessageFormat.getD "").toList
        (bp.expressions.map String.toList) with
    | none => none
    | some fmt =>
      some { id := bp.id, action := bp.action, location := loc,
             logMessageFormat := some (List.asString fmt),
             expressions := bp.expressions, expressionsHidden := true }
  else
    some { id := bp.id, action := bp.action, location := loc,
           logMessageFormat := bp.logMessageFormat,
           expressions := bp.expressions, expressionsHidden := false }

def isHexLower (c : Char) : Bool := c.isDigit || ('a' ≤ c && c ≤ 'f')

/-- `_BREAKPOINT_ID_PATTERN.match` (debug.py line 38): the anchored
regex `^[0-9a-f]{13,16}-[0-9a-f]{4}-[0-9a-f]+$`, with Python's `$`
also matching just before one trailing newline. -/
def breakpointIdPattern (s : String) : Bool :=
  let l := s.toList
  let seg1 := l.takeWhile isHexLower
  (13 ≤ seg1.length && seg1.length ≤ 16) &&
  match l.drop seg1.length with
  | '-' :: r2 =>
    ((r2.takeWhile isHexLower).length == 4) &&
    match r2.drop 4 with
    | '-' :: r3 =>
      let seg3 := r3.takeWhile isHexLower
      (1 ≤ seg3.length) &&
      (decide (r3.drop seg3.length = []) || decide (r3.drop seg3.length = ['\n']))
    | _ => false
  | _ => false

/-- The ID pattern the spec asserts (`^[0-9a-f]{13,16}-[0-9a-f]{4}-
[0-9a-f]{1,8}$`, spec §6): as `breakpointIdPattern` but with the third
segment capped at 8 digits.  Stated from the spec's words, for
comparison with the source pattern. -/
def specBreakpointIdPattern (s : String) : Bool :=
  let l := s.toList
  let seg1 := l.takeWhile isHexLower
  (13 ≤ seg1.length && seg1.length ≤ 16) &&
  match l.drop seg1.length with
  | '-' :: r2 =>
    ((r2.takeWhile isHexLower).length == 4) &&
    match r2.drop 4 with
    | '-' :: r3 =>
      let seg3 := r3.takeWhile isHexLower
      (1 ≤ seg3.length && seg3.length ≤ 8) &&
      (decide (r3.drop seg3.length = []) || decide (r3.drop seg3.length = ['\n']))
    | _ => false
  | _ => false

/-- `_MatchesIdOrRegexp` (debug.py lines 691-710).  Each compiled
location pattern is abstracted as its `search` function over the
`path:line` string. -/
def matchesIdOrRegexp (bp : Breakpoint) (ids : List String)
    (patterns : List (String → Bool)) : Bool :=
  bp.id ∈ ids ||
  match bp.location with
  | none => false
  | some pl => patterns.any (fun p => p (pl.1 ++ ":" ++ toString pl.2))

/-- First-occurrence deduplication, modelling the membership content of
a Python `set` built from a list (iteration order of a `set` is
unspecified; only membership and per-element uniqueness matter to the
claims). -/
def dedup (l : List String) : List String :=
  l.foldl (fun acc x => if x ∈ acc then acc else acc ++ [x]) []

/-- Transport or decoding failures of the breakpoint service:
`http` is an HTTP error from an RPC, `formatError` an uncaught
exception from `str.format` inside `AddTargetInfo`, `attributeError`
the `AttributeError` `_MessageDict` raises when asked for a message
attribute it does not have. -/
inductive SvcError
  | http (msg : String)
  | formatError
  | attributeError
  deriving Repr, DecidableEq

/-- `Debuggee.GetBreakpoint` (debug.py lines 423-437): the remote `Get`
(abstracted as the `get` argument) followed by `AddTargetInfo`, hence
returning an already-decorated record. -/
def getBreakpoint (get : String → Except SvcError Breakpoint) (i : String) :
    Except SvcError DecoratedBreakpoint :=
  match get i with
  | .error e => .error e
  | .ok bp =>
    match addTargetInfo bp with
    | none => .error .formatError
    | some d => .ok d

/-- The `for i in missing_ids: result.append(self.GetBreakpoint(i))`
loop: the fetched records in order, stopping at the first failure. -/
def fetchMissing (get : String → Except SvcError Breakpoint) :
    List String → Except SvcError (List DecoratedBreakpoint)
  | [] => .ok []
  | i :: rest =>
    match getBreakpoint get i with
    | .error e => .error e
    | .ok d =>
      match fetchMissing get rest with
      | .error e => .error e
      | .ok ds => .ok (d :: ds)

/-- The IDs the loop issues a `Get` call for, in order, stopping after
the first failing call. -/
def fetchCalls (get : String → Except SvcError Breakpoint) :
    List String → List String
  | [] => []
  | i :: rest =>
    i :: match getBreakpoint get i with
    | .ok _ => fetchCalls get rest
    | .error _ => []

/-- The action-kind filter of `_FilteredDictListWithInfo` (debug.py
line 687): keep everything when `restrict_to_type` is unset, else keep
matching actions, treating an unset action as CAPTURE. -/
def actionKept (a : Option BpAction) (restrictToType : Option BpAction) : Bool :=
  restrictToType == none || a == restrictToType ||
    (a == none && restrictToType == some .capture)

/-- `_FilteredDictListWithInfo` (debug.py lines 675-688) over the mixed
list `ListMatchingBreakpoints` builds: raw messages from the listing
(`.inl`) plus already-decorated records appended by `GetBreakpoint`
(`.inr`).  Re-decorating an already-decorated record calls
`all_fields()` on a `_MessageDict`, which raises `AttributeError`. -/
def filteredDictListWithInfo (result : List (Breakpoint ⊕ DecoratedBreakpoint))
    (restrictToType : Option BpAction) : Except SvcError (List DecoratedBreakpoint) :=
  (result.filter (fun r =>
      actionKept (match r with | .inl bp => bp.action | .inr d => d.action) restrictToType)
    ).mapM fun r =>
      match r with
      | .inl bp =>
        match addTargetInfo bp with
        | none => Except.error SvcError.formatError
        | some d => Except.ok d
      | .inr _ => Except.error SvcError.attributeError

/-- The exact-ID set of `ListMatchingBreakpoints` (debug.py lines
489-490), as a duplicate-free list. -/
def exactIds (inputs : List String) : List String :=
  dedup (inputs.filter breakpointIdPattern)

/-- The IDs of `missing_ids = ids - set([bp.id for bp in result])`, as
a duplicate-free list. -/
def missingIds (ids : List String) (matched : List Breakpoint) : List String :=
  ids.filter (fun i => !matched.any (fun bp => bp.id == i))

/-- `Debuggee.ListMatchingBreakpoints` (debug.py lines 466-504).  The
flag-filtered server listing is abstracted as `response`; `searchOf`
abstracts `re.compile`, mapping a pattern to its `search` function. -/
def listMatchingBreakpoints (get : String → Except SvcError Breakpoint)
    (searchOf : String → String → Bool) (response : List Breakpoint)
    (inputs : List String) (restrictToType : Option BpAction) :
    Except SvcError (List DecoratedBreakpoint) :=
  let ids := exactIds inputs
  let patterns := ((dedup inputs).filter (fun i => !breakpointIdPattern i)).map searchOf
  let result := response.filter (fun bp => matchesIdOrRegexp bp ids patterns)
  match fetchMissing get (missingIds ids result) with
  | .error e => .error e
  | .ok extra =>
    filteredDictListWithInfo (result.map .inl ++ extra.map .inr) restrictToType

/-- The sequence of individual `Get` calls a `ListMatchingBreakpoints`
invocation issues. -/
def listMatchingGetCalls (get : String → Except SvcError Breakpoint)
    (searchOf : String → String → Bool) (response : List Breakpoint)
    (inputs : List String) : List String :=
  let ids := exactIds inputs
  let patterns := ((dedup inputs).filter (fun i => !breakpointIdPattern i)).map searchOf
  let result := response.filter (fun bp => matchesIdOrRegexp bp ids patterns)
  fetchCalls get (missingIds ids result)

/-! ## Supporting lemmas -/

theorem splitStep_braceCount (s : SplitState) (c : Char) :
    (splitStep s c).braceCount = depthStep s.braceCount c := by
  simp only [splitStep, depthStep]
  split_ifs <;> simp_all

theorem splitLoop_braceCount (cs : List Char) :
    ∀ s : SplitState, (splitLoop s cs).braceCount = cs.foldl depthStep s.braceCount := by
  induction cs with
  | nil => intro s; rfl
  | cons c cs ih =>
    intro s
    simp only [splitLoop, List.foldl_cons, ih, splitStep_braceCount]

/-! ## Decimal digit printing -/

theorem natToDigitsAux_congr : ∀ n, ∀ f1 f2, n < f1 → n < f2 →
    natToDigitsAux f1 n = natToDigitsAux f2 n := by
  intro n
  induction n using Nat.strong_induction_on with
  | _ n ih =>
    intro f1 f2 h1 h2
    match f1, f2 with
    | g1 + 1, g2 + 1 =>
      simp only [natToDigitsAux]
      by_cases h10 : n < 10
      · simp [h10]
      · rw [if_neg h10, if_neg h10]
        have hdiv : n / 10 < n := Nat.div_lt_self (by omega) (by omega)
        rw [ih (n / 10) hdiv g1 g2 (by omega) (by omega)]

theorem natToDigits_eq (n : Nat) :
    natToDigits n = if n < 10 then [Nat.digitChar n]
      else natToDigits (n / 10) ++ [Nat.digitChar (n % 10)] := by
  rw [natToDigits, natToDigitsAux]
  by_cases h10 : n < 10
  · simp [h10]
  · rw [if_neg h10, if_neg h10, natToDigits]
    have hdiv : n / 10 < n := Nat.div_lt_self (by omega) (by omega)
    rw [natToDigitsAux_congr (n / 10) n (n / 10 + 1) (by omega) (by omega)]

theorem digitChar_isDigit : ∀ k, k < 10 → (Nat.digitChar k).isDigit = true := by decide

theorem digitVal_digitChar : ∀ k, k < 10 → digitVal (Nat.digitChar k) = k := by decide

theorem natToDigits_ne_nil (n : Nat) : natToDigits n ≠ [] := by
  rw [natToDigits_eq]
  by_cases h10 : n < 10 <;> simp [h10]

theorem natToDigits_all_digit (n : Nat) : ∀ c ∈ natToDigits n, c.isDigit = true := by
  induction n using Nat.strong_induction_on with
  | _ n ih =>
    rw [natToDigits_eq]
    by_cases h10 : n < 10
    · simp only [if_pos h10, List.mem_singleton]
      rintro c rfl
      exact digitChar_isDigit n h10
    · rw [if_neg h10]
      intro c hc
      rcases List.mem_append.mp hc with h | h
      · exact ih (n / 10) (Nat.div_lt_self (by omega) (by omega)) c h
      · rcases List.mem_singleton.mp h with rfl
        exact digitChar_isDigit (n % 10) (Nat.mod_lt n (by omega))

theorem parseNat_append_digit (ds : List Char) (c : Char) :
    parseNat (ds ++ [c]) = 10 * parseNat ds + digitVal c := by
  simp [parseNat, List.foldl_append]

theorem parseNat_natToDigits (n : Nat) : parseNat (natToDigits n) = n := by
  induction n using Nat.strong_induction_on with
  | _ n ih =>
    rw [natToDigits_eq]
    by_cases h10 : n < 10
    · rw [if_pos h10]
      show parseNat ([] ++ [Nat.digitChar n]) = n
      rw [parseNat_append_digit]
      simp [parseNat, digitVal_digitChar n h10]
    · rw [if_neg h10, parseNat_append_digit,
        ih (n / 10) (Nat.div_lt_self (by omega) (by omega)),
        digitVal_digitChar (n % 10) (Nat.mod_lt n (by omega))]
      omega

/-! ## Append lemmas for the substitution scanner -/

theorem subStA_append (st : Option (List Char)) (x y : List Char) :
    subStA st (x ++ y) = subStA (subStA st x) y :=
  List.foldl_append _ _ _ _

theorem subStA_cons (st : Option (List Char)) (c : Char) (l : List Char) :
    subStA st (c :: l) = subStA (subNext st c) l := by
  simp [subStA]

theorem subPre_append (x : List Char) :
    ∀ (st : Option (List Char)) (y : List Char),
      subPre st (x ++ y) = subPre st x ++ subPre (subStA st x) y := by
  induction x with
  | nil => intro st y; simp [subPre, subStA]
  | cons c x ih =>
    intro st y
    have hcons : ∀ t, subPre st (c :: t) =
        (if c = '$' then flushSub st ++ subPre (some []) t
         else if c.isDigit then
           (match st with
            | some ds => subPre (some (ds ++ [c])) t
            | none => c :: subPre none t)
         else flushSub st ++ c :: subPre none t) := by
      intro t; rfl
    rw [List.cons_append, hcons, hcons, subStA_cons]
    by_cases hd : c = '$'
    · rw [if_pos hd, if_pos hd, ih, List.append_assoc]
      have : subNext st c = some [] := by simp [subNext, hd]
      rw [this]
    · rw [if_neg hd, if_neg hd]
      by_cases hdig : c.isDigit
      · rw [if_pos hdig, if_pos hdig]
        rcases st with _ | ds
        · have hn : subNext none c = none := by simp [subNext, hd, hdig]
          rw [hn]
          show c :: subPre none (x ++ y) = (c :: subPre none x) ++ subPre (subStA none x) y
          rw [List.cons_append, ih]
        · have hn : subNext (some ds) c = some (ds ++ [c]) := by simp [subNext, hd, hdig]
          rw [hn]
          show subPre (some (ds ++ [c])) (x ++ y) =
            subPre (some (ds ++ [c])) x ++ subPre (subStA (some (ds ++ [c])) x) y
          exact ih _ _
      · rw [if_neg hdig, if_neg hdig, ih]
        have hn : subNext st c = none := by simp [subNext, hd, hdig]
        rw [hn, List.append_assoc, List.cons_append]

theorem tokensPre_append (x : List Char) :
    ∀ (st : Option (List Char)) (y : List Char),
      tokensPre st (x ++ y) = tokensPre st x ++ tokensPre (subStA st x) y := by
  induction x with
  | nil => intro st y; simp [tokensPre, subStA]
  | cons c x ih =>
    intro st y
    have hcons : ∀ (st : Option (List Char)) t, tokensPre st (c :: t) =
        (if c = '$' then flushTok st ++ tokensPre (some []) t
         else if c.isDigit then
           (match st with
            | some ds => tokensPre (some (ds ++ [c])) t
            | none => tokensPre none t)
         else flushTok st ++ tokensPre none t) := by
      intro st t; rfl
    rw [List.cons_append, hcons, hcons, subStA_cons]
    by_cases hd : c = '$'
    · rw [if_pos hd, if_pos hd, ih, List.append_assoc]
      have : subNext st c = some [] := by simp [subNext, hd]
      rw [this]
    · rw [if_neg hd, if_neg hd]
      by_cases hdig : c.isDigit
      · rw [if_pos hdig, if_pos hdig]
        rcases st with _ | ds
        · have hn : subNext none c = none := by simp [subNext, hd, hdig]
          rw [hn]
          show tokensPre none (x ++ y) = tokensPre none x ++ tokensPre (subStA none x) y
          exact ih _ _
        · have hn : subNext (some ds) c = some (ds ++ [c]) := by simp [subNext, hd, hdig]
          rw [hn]
          show tokensPre (some (ds ++ [c])) (x ++ y) =
            tokensPre (some (ds ++ [c])) x ++ tokensPre (subStA (some (ds ++ [c])) x) y
          exact ih _ _
      · rw [if_neg hdig, if_neg hdig, ih]
        have hn : subNext st c = none := by simp [subNext, hd, hdig]
        rw [hn, List.append_assoc]

/-- Digits-only continuations stay inside the current `$` run. -/
theorem subPre_digits (ds : List Char) :
    ∀ e, (∀ c ∈ ds, c.isDigit = true) →
      subPre (some e) ds = [] ∧ subStA (some e) ds = some (e ++ ds) := by
  induction ds with
  | nil => intro e _; simp [subPre, subStA]
  | cons c ds ih =>
    intro e h
    have hc : c.isDigit = true := h c (List.mem_cons_self c ds)
    have hd : c ≠ '$' := by rintro rfl; simp at hc
    constructor
    · simp only [subPre, if_neg hd, if_pos hc]
      exact (ih (e ++ [c]) (fun x hx => h x (List.mem_cons_of_mem c hx))).1
    · simp only [subStA, List.foldl_cons]
      have : subNext (some e) c = some (e ++ [c]) := by simp [subNext, hd, hc]
      rw [this]
      have := (ih (e ++ [c]) (fun x hx => h x (List.mem_cons_of_mem c hx))).2
      rw [subStA] at this
      rw [this]
      simp

theorem tokensPre_digits (ds : List Char) :
    ∀ e, (∀ c ∈ ds, c.isDigit = true) → tokensPre (some e) ds = [] := by
  induction ds with
  | nil => intro e _; simp [tokensPre]
  | cons c ds ih =>
    intro e h
    have hc : c.isDigit = true := h c (List.mem_cons_self c ds)
    have hd : c ≠ '$' := by rintro rfl; simp at hc
    simp only [tokensPre, if_neg hd, if_pos hc]
    exact ih (e ++ [c]) (fun x hx => h x (List.mem_cons_of_mem c hx))

/-! ## Single-character and token appends to the encoded output -/

/-- Appending a non-digit character never changes the substituted text
except for copying the character, and leaves a definite scanner
state. -/
theorem subDollar_append_nondigit (l : List Char) (c : Char) (h : c.isDigit = false) :
    subDollar (l ++ [c]) = subDollar l ++ [c] ∧
    dollarTokens (l ++ [c]) = dollarTokens l ∧
    subStA none (l ++ [c]) = (if c = '$' then some [] else none) := by
  have hstep := subPre_append l none [c]
  have htok := tokensPre_append l none [c]
  have hst := subStA_append none l [c]
  by_cases hd : c = '$'
  · subst hd
    refine ⟨?_, ?_, ?_⟩
    · rw [subDollar, subDollar, hstep, hst]
      simp [subPre, subStA, subNext, flushSub, List.append_assoc]
    · rw [dollarTokens, dollarTokens, htok, hst]
      simp [tokensPre, subStA, subNext, flushTok, List.append_assoc]
    · rw [hst]
      simp [subStA, subNext]
  · refine ⟨?_, ?_, ?_⟩
    · rw [subDollar, subDollar, hstep, hst]
      simp [subPre, subStA, subNext, flushSub, hd, h, List.append_assoc]
    · rw [dollarTokens, dollarTokens, htok, hst]
      simp [tokensPre, subStA, subNext, flushTok, hd, h, List.append_assoc]
    · rw [hst]
      simp [subStA, subNext, hd, h]

/-- Appending a digit while the scanner is outside any `$` run copies
the digit. -/
theorem subDollar_append_digit_none (l : List Char) (c : Char) (hdig : c.isDigit = true)
    (hst0 : subStA none l = none) :
    subDollar (l ++ [c]) = subDollar l ++ [c] ∧
    dollarTokens (l ++ [c]) = dollarTokens l ∧
    subStA none (l ++ [c]) = none := by
  have hd : c ≠ '$' := by rintro rfl; simp at hdig
  have hst0' : List.foldl subNext none l = none := hst0
  refine ⟨?_, ?_, ?_⟩
  · rw [subDollar, subDollar, subPre_append, hst0]
    simp [subPre, subStA, subNext, flushSub, hd, hdig, List.append_assoc, hst0']
  · rw [dollarTokens, dollarTokens, tokensPre_append, hst0, subStA_append, hst0]
    simp [tokensPre, subStA, subNext, flushTok, hd, hdig, hst0']
  · rw [subStA_append, hst0]
    simp [subStA, subNext, hd, hdig, hst0']

/-- Appending `'$'` followed by the decimal digits of `i` appends the
substituted group `{{{i}}}` and registers the token `i`. -/
theorem subDollar_append_token (l : List Char) (i : Nat) :
    subDollar (l ++ '$' :: natToDigits i) =
      subDollar l ++ '{' :: '{' :: '{' :: (natToDigits i ++ ['}', '}', '}']) ∧
    dollarTokens (l ++ '$' :: natToDigits i) = dollarTokens l ++ [i] ∧
    subStA none (l ++ '$' :: natToDigits i) = some (natToDigits i) := by
  have hdigs := natToDigits_all_digit i
  have hne := natToDigits_ne_nil i
  have hsub := subPre_digits (natToDigits i) [] hdigs
  have htokd := tokensPre_digits (natToDigits i) [] hdigs
  have hflush : flushSub (some (natToDigits i)) =
      '{' :: '{' :: '{' :: (natToDigits i ++ ['}', '}', '}']) := by
    match hm : natToDigits i, hne with
    | d :: ds, _ => simp [flushSub]
  have hflushT : flushTok (some (natToDigits i)) = [natToDigits i] := by
    match hm : natToDigits i, hne with
    | d :: ds, _ => simp [flushTok]
  have hstate : subStA none (l ++ '$' :: natToDigits i) = some (natToDigits i) := by
    rw [subStA_append, subStA_cons]
    have h1 : subNext (subStA none l) '$' = some [] := by simp [subNext]
    rw [h1]
    have h2 := (subPre_digits (natToDigits i) [] hdigs).2
    rw [h2]
    simp
  refine ⟨?_, ?_, hstate⟩
  · rw [subDollar, subDollar, subPre_append, hstate]
    have hone : subPre (subStA none l) ('$' :: natToDigits i) = flushSub (subStA none l) := by
      have : subPre (subStA none l) ('$' :: natToDigits i) =
          flushSub (subStA none l) ++ subPre (some []) (natToDigits i) := by
        rfl
      rw [this, hsub.1, List.append_nil]
    rw [hone, hflush, List.append_assoc]
  · rw [dollarTokens, dollarTokens, tokensPre_append, hstate]
    have hone : tokensPre (subStA none l) ('$' :: natToDigits i) = flushTok (subStA none l) := by
      have : tokensPre (subStA none l) ('$' :: natToDigits i) =
          flushTok (subStA none l) ++ tokensPre (some []) (natToDigits i) := by
        rfl
      rw [this, htokd, List.append_nil]
    rw [hone, hflushT]
    simp [parseNat_natToDigits, List.append_assoc]

/-! ## Branch equations for the split loop step -/

theorem splitStep_open (s : SplitState) :
    splitStep s '{' = { s with
      needSeparator := false,
      currentExpression := if s.braceCount ≠ 0 then s.currentExpression ++ ['{'] else [],
      braceCount := s.braceCount + 1 } := by
  simp [splitStep]

theorem splitStep_closeTop (s : SplitState) (h : s.braceCount = 0) :
    splitStep s '}' = { s with logFormat := s.logFormat ++ ['}'], needSeparator := false } := by
  simp [splitStep, h]

theorem splitStep_subst (s : SplitState) (h : s.braceCount = 1) :
    splitStep s '}' = { s with
      expressions := if s.currentExpression ∈ s.expressions then s.expressions
                     else s.expressions ++ [s.currentExpression],
      logFormat := s.logFormat ++ '$' :: natToDigits
        (if s.currentExpression ∈ s.expressions
         then s.expressions.indexOf s.currentExpression else s.expressions.length),
      braceCount := 0,
      needSeparator := true } := by
  simp [splitStep, h]

theorem splitStep_closeNested (s : SplitState) (h : s.braceCount ≠ 0) (h1 : s.braceCount ≠ 1) :
    splitStep s '}' = { s with
      currentExpression := s.currentExpression ++ ['}'],
      braceCount := s.braceCount - 1,
      needSeparator := false } := by
  simp [splitStep, h, h1]

theorem splitStep_inExpr (s : SplitState) (c : Char) (hc1 : c ≠ '{') (hc2 : c ≠ '}')
    (hb : s.braceCount ≠ 0) (hns : s.needSeparator = false) :
    splitStep s c = { s with
      currentExpression := s.currentExpression ++ [c],
      needSeparator := false } := by
  simp [splitStep, hc1, hc2, hb, hns]

theorem splitStep_topLit (s : SplitState) (c : Char) (hc1 : c ≠ '{') (_hc2 : c ≠ '}')
    (hb : s.braceCount = 0) :
    splitStep s c = { s with
      logFormat := (if s.needSeparator && c.isDigit then s.logFormat ++ [' ']
                    else s.logFormat) ++ [c],
      needSeparator := false } := by
  simp [splitStep, hc1, hb]

theorem dollarDigitFree_cons (c : Char) (cs : List Char)
    (h : dollarDigitFree (c :: cs) = true) :
    dollarDigitFree cs = true ∧
    (c = '$' → ∀ d, cs.head? = some d → d.isDigit = false) := by
  cases cs with
  | nil =>
    refine ⟨rfl, ?_⟩
    rintro rfl d hd
    simp at hd
  | cons e cs =>
    have h2 : ((if c = '$' then !e.isDigit else true) && dollarDigitFree (e :: cs)) = true := h
    rw [Bool.and_eq_true] at h2
    refine ⟨h2.2, ?_⟩
    rintro rfl d hd
    have hde : d = e := by simpa using hd.symm
    subst hde
    have h3 := h2.1
    rw [if_pos rfl] at h3
    simpa using h3

/-! ## Claim C1: the token-bound invariant -/

theorem indexOf_lt_length_of_mem {α : Type} [BEq α] [LawfulBEq α]
    (l : List α) (x : α) (h : x ∈ l) : l.indexOf x < l.length := by
  induction l with
  | nil => cases h
  | cons a l ih =>
    rw [List.indexOf_cons]
    by_cases hax : a = x
    · have hb : (a == x) = true := beq_iff_eq.mpr hax
      simp [hb]
    · have hb : (a == x) = false := beq_eq_false_iff_ne.mpr hax
      have hx : x ∈ l := by
        rcases List.mem_cons.mp h with rfl | h2
        · exact absurd rfl hax
        · exact h2
      simp only [hb, cond_false, List.length_cons]
      exact Nat.succ_lt_succ (ih hx)

/-- The split loop keeps every `$N` token of the output format below
the expression count, and the expression list duplicate-free, for
inputs that carry no `$digit` text of their own.  The last hypothesis
tracks the `\$([0-9]+)` scanner state of the output: at top level with
no pending separator the output never ends inside a `$digits` run, and
may end in a bare `$` only when the next input character is not a
digit. -/
theorem c1_main : ∀ (cs : List Char) (ss : SplitState),
    dollarDigitFree cs = true →
    (ss.needSeparator = true → ss.braceCount = 0) →
    ss.expressions.Nodup →
    (∀ t ∈ dollarTokens ss.logFormat, t < ss.expressions.length) →
    (ss.braceCount = 0 → ss.needSeparator = false →
      subStA none ss.logFormat = none ∨
      (subStA none ss.logFormat = some [] ∧
        ∀ d, cs.head? = some d → d.isDigit = false)) →
    (splitLoop ss cs).expressions.Nodup ∧
    ∀ t ∈ dollarTokens (splitLoop ss cs).logFormat,
      t < (splitLoop ss cs).expressions.length := by
  intro cs
  induction cs with
  | nil =>
    intro ss _ _ hnd htok _
    exact ⟨hnd, htok⟩
  | cons c cs ih =>
    intro ss hfree hns hnd htok hstate
    obtain ⟨hfree', hdollar⟩ := dollarDigitFree_cons c cs hfree
    rw [splitLoop]
    by_cases hc1 : c = '{'
    · subst hc1
      rw [splitStep_open]
      refine ih _ hfree' ?_ ?_ ?_ ?_
      · intro h; simp at h
      · simpa using hnd
      · simpa using htok
      · intro hbc; simp at hbc
    · by_cases hc2 : c = '}'
      · subst hc2
        by_cases hb0 : ss.braceCount = 0
        · rw [splitStep_closeTop ss hb0]
          have h1 := subDollar_append_nondigit ss.logFormat '}' (by decide)
          refine ih _ hfree' ?_ ?_ ?_ ?_
          · intro h; simp at h
          · simpa using hnd
          · show ∀ t ∈ dollarTokens (ss.logFormat ++ ['}']), t < ss.expressions.length
            rw [h1.2.1]; exact htok
          · intro _ _
            left
            show subStA none (ss.logFormat ++ ['}']) = none
            rw [h1.2.2]; simp
        · by_cases hb1 : ss.braceCount = 1
          · rw [splitStep_subst ss hb1]
            have htoka := subDollar_append_token ss.logFormat
              (if ss.currentExpression ∈ ss.expressions
               then ss.expressions.indexOf ss.currentExpression
               else ss.expressions.length)
            refine ih _ hfree' ?_ ?_ ?_ ?_
            · intro _; rfl
            · show (if ss.currentExpression ∈ ss.expressions then ss.expressions
                    else ss.expressions ++ [ss.currentExpression]).Nodup
              by_cases hmem : ss.currentExpression ∈ ss.expressions
              · rw [if_pos hmem]; exact hnd
              · rw [if_neg hmem]
                exact List.nodup_append.mpr ⟨hnd, List.nodup_singleton _, by simpa using hmem⟩
            · show ∀ t ∈ dollarTokens (ss.logFormat ++ '$' :: natToDigits _), t < _
              rw [htoka.2.1]
              intro t ht
              rcases List.mem_append.mp ht with h | h
              · calc t < ss.expressions.length := htok t h
                  _ ≤ _ := by
                    by_cases hmem : ss.currentExpression ∈ ss.expressions
                    · simp [hmem]
                    · simp [hmem]
              · rcases List.mem_singleton.mp h with rfl
                by_cases hmem : ss.currentExpression ∈ ss.expressions
                · simp only [if_pos hmem]
                  exact indexOf_lt_length_of_mem _ _ hmem
                · simp [hmem]
            · intro _ hfalse; simp at hfalse
          · rw [splitStep_closeNested ss hb0 hb1]
            refine ih _ hfree' ?_ ?_ ?_ ?_
            · intro h; simp at h
            · simpa using hnd
            · simpa using htok
            · intro hbc _
              exfalso
              have : ss.braceCount - 1 = 0 := hbc
              omega
      · by_cases hb0 : ss.braceCount = 0
        · rw [splitStep_topLit ss c hc1 hc2 hb0]
          by_cases hsep : ss.needSeparator && c.isDigit
          · rw [if_pos hsep]
            have hdig : c.isDigit = true := (Bool.and_eq_true _ _ |>.mp hsep).2
            have h1 := subDollar_append_nondigit ss.logFormat ' ' (by decide)
            have hstn : subStA none (ss.logFormat ++ [' ']) = none := by
              rw [h1.2.2]; simp
            have h2 := subDollar_append_digit_none (ss.logFormat ++ [' ']) c hdig hstn
            refine ih _ hfree' ?_ ?_ ?_ ?_
            · intro h; simp at h
            · simpa using hnd
            · show ∀ t ∈ dollarTokens (ss.logFormat ++ [' '] ++ [c]), t < ss.expressions.length
              rw [h2.2.1, h1.2.1]; exact htok
            · intro _ _
              left
              exact h2.2.2
          · rw [if_neg hsep]
            by_cases hdig : c.isDigit
            · have hnsf : ss.needSeparator = false := by
                cases hx : ss.needSeparator
                · rfl
                · exfalso; apply hsep; rw [hx, hdig]; rfl
              have hstn : subStA none ss.logFormat = none := by
                rcases hstate hb0 hnsf with h | ⟨h1, h2⟩
                · exact h
                · exact absurd hdig (by simp [h2 c rfl])
              have h2 := subDollar_append_digit_none ss.logFormat c hdig hstn
              refine ih _ hfree' ?_ ?_ ?_ ?_
              · intro h; simp at h
              · simpa using hnd
              · show ∀ t ∈ dollarTokens (ss.logFormat ++ [c]), t < ss.expressions.length
                rw [h2.2.1]; exact htok
              · intro _ _
                left
                exact h2.2.2
            · have h1 := subDollar_append_nondigit ss.logFormat c (by simpa using hdig)
              refine ih _ hfree' ?_ ?_ ?_ ?_
              · intro h; simp at h
              · simpa using hnd
              · show ∀ t ∈ dollarTokens (ss.logFormat ++ [c]), t < ss.expressions.length
                rw [h1.2.1]; exact htok
              · intro _ _
                by_cases hds : c = '$'
                · right
                  constructor
                  · show subStA none (ss.logFormat ++ [c]) = some []
                    rw [h1.2.2, if_pos hds]
                  · intro d hd
                    exact hdollar hds d hd
                · left
                  show subStA none (ss.logFormat ++ [c]) = none
                  rw [h1.2.2, if_neg hds]
        · have hnsf : ss.needSeparator = false := by
            cases hx : ss.needSeparator
            · rfl
            · exact absurd (hns hx) hb0
          rw [splitStep_inExpr ss c hc1 hc2 hb0 hnsf]
          refine ih _ hfree' ?_ ?_ ?_ ?_
          · intro h; simp at h
          · simpa using hnd
          · simpa using htok
          · intro hbc
            exact absurd hbc hb0

/-- C1 as stated is false: `Split("$5")` succeeds with encoded `"$5"`
and an empty expression list, and the `$5` token does not satisfy
`5 < 0`.  A literal `$` followed by digits in the input is copied to
the encoded output and reads as a token. -/
theorem c1_counterexample :
    splitLogExpressions "$5".toList = some ("$5".toList, []) ∧
    dollarTokens "$5".toList = [5] ∧
    ¬ (5 < ([] : List (List Char)).length) := by decide

/-- C1 amended: for every format string with balanced top-level braces
that contains no literal `$` immediately followed by a digit, `Split`
returns `(encoded, exprs)` with every `$i` token of `encoded`
satisfying `0 ≤ i < len exprs`, and `exprs` duplicate-free (identical
expression text is assigned one index, that of its first occurrence);
in particular `Split("{x}{x}") = ("$0$0", ["x"])`. -/
theorem c1_split_token_bound :
    (∀ fmt, dollarDigitFree fmt = true →
      ∀ enc exprs, splitLogExpressions fmt = some (enc, exprs) →
        (∀ t ∈ dollarTokens enc, t < exprs.length) ∧ exprs.Nodup) ∧
    splitLogExpressions "{x}{x}".toList = some ("$0$0".toList, ["x".toList]) := by
  refine ⟨?_, by decide⟩
  intro fmt hfree enc exprs hsplit
  rw [splitLogExpressions] at hsplit
  by_cases hbc : (splitLoop initSplitState fmt).braceCount ≠ 0
  · rw [if_pos hbc] at hsplit; cases hsplit
  · rw [if_neg hbc] at hsplit
    have hmain := c1_main fmt initSplitState hfree
      (by intro h; rfl)
      (by simp [initSplitState])
      (by intro t ht; simp [initSplitState, dollarTokens, tokensPre, subStA, flushTok] at ht)
      (by intro _ _; left; rfl)
    simp only [Option.some.injEq, Prod.mk.injEq] at hsplit
    obtain ⟨henc, hexprs⟩ := hsplit
    rw [← henc, ← hexprs]
    exact ⟨hmain.2, hmain.1⟩

/-- Witness for C1 at `Split("{x}{x}") = ("$0$0", ["x"])`. -/
theorem c1_split_token_bound_witness :
    (∀ t ∈ dollarTokens "$0$0".toList, t < ([["x".toList]].head!).length) ∧
    ([["x".toList]].head!).Nodup :=
  c1_split_token_bound.1 "{x}{x}".toList (by decide) "$0$0".toList ["x".toList] (by decide)

/-! ## Composition lemmas for the format scanner -/

theorem splitStep_needSeparator (s : SplitState) (c : Char) :
    (splitStep s c).needSeparator = decide (s.braceCount = 1 ∧ c = '}') := by
  simp only [splitStep]
  split_ifs <;> simp_all

/-- A successful scan of a prefix continues deterministically: scanning
`x ++ y` first produces `x`'s output, then continues on `y` from the
mode `x` ended in. -/
theorem pyFmtGo_append (args : List (List Char)) :
    ∀ (x : List Char) (ph : FmtPhase) (m : FmtMode) (o : List Char) (m' : FmtMode),
      pyFmtGo args ph m x = some (o, m') →
      ∀ y, pyFmtGo args ph m (x ++ y) =
        (pyFmtGo args .text m' y).map (fun p => (o ++ p.1, p.2)) := by
  intro x
  induction x with
  | nil =>
    intro ph m o m' h y
    cases ph with
    | text =>
      rw [pyFmtGo] at h
      have hinj := Option.some.inj h
      have ho : o = [] := (congrArg Prod.fst hinj).symm
      have hmm : m' = m := (congrArg Prod.snd hinj).symm
      rw [ho, hmm, List.nil_append]
      cases hpy : pyFmtGo args .text m y <;> simp [hpy]
    | openBrace => rw [pyFmtGo] at h; cases h
    | closeBrace => rw [pyFmtGo] at h; cases h
    | field ds => rw [pyFmtGo] at h; cases h
  | cons c x ih =>
    intro ph m o m' h y
    match ph with
    | .text =>
      rw [pyFmtGo] at h
      rw [List.cons_append, pyFmtGo]
      by_cases h1 : c = '{'
      · rw [if_pos h1] at h ⊢
        exact ih _ _ _ _ h y
      · rw [if_neg h1] at h ⊢
        by_cases h2 : c = '}'
        · rw [if_pos h2] at h ⊢
          exact ih _ _ _ _ h y
        · rw [if_neg h2] at h ⊢
          obtain ⟨⟨o1, m1⟩, ho1, hco⟩ := Option.map_eq_some'.mp h
          cases hco
          rw [ih _ _ _ _ ho1 y]
          cases hpy : pyFmtGo args .text m1 y <;> simp [hpy]
    | .openBrace =>
      rw [pyFmtGo] at h
      rw [List.cons_append, pyFmtGo]
      by_cases h1 : c = '{'
      · rw [if_pos h1] at h ⊢
        obtain ⟨⟨o1, m1⟩, ho1, hco⟩ := Option.map_eq_some'.mp h
        cases hco
        rw [ih _ _ _ _ ho1 y]
        cases hpy : pyFmtGo args .text m1 y <;> simp [hpy]
      · rw [if_neg h1] at h ⊢
        by_cases h2 : c.isDigit
        · rw [if_pos h2] at h ⊢
          exact ih _ _ _ _ h y
        · rw [if_neg h2] at h ⊢
          by_cases h3 : c = '}'
          · rw [if_pos h3] at h ⊢
            obtain ⟨vm, hvm, hrest⟩ := Option.bind_eq_some.mp h
            rw [hvm, Option.some_bind] at h ⊢
            obtain ⟨⟨o1, m1⟩, ho1, hco⟩ := Option.map_eq_some'.mp hrest
            cases hco
            rw [ih _ _ _ _ ho1 y]
            cases hpy : pyFmtGo args .text m1 y <;> simp [hpy, List.append_assoc]
          · rw [if_neg h3] at h
            cases h
    | .closeBrace =>
      rw [pyFmtGo] at h
      rw [List.cons_append, pyFmtGo]
      by_cases h2 : c = '}'
      · rw [if_pos h2] at h ⊢
        obtain ⟨⟨o1, m1⟩, ho1, hco⟩ := Option.map_eq_some'.mp h
        cases hco
        rw [ih _ _ _ _ ho1 y]
        cases hpy : pyFmtGo args .text m1 y <;> simp [hpy]
      · rw [if_neg h2] at h
        cases h
    | .field ds =>
      rw [pyFmtGo] at h
      rw [List.cons_append, pyFmtGo]
      by_cases h2 : c.isDigit
      · rw [if_pos h2] at h ⊢
        exact ih _ _ _ _ h y
      · rw [if_neg h2] at h ⊢
        by_cases h3 : c = '}'
        · rw [if_pos h3] at h ⊢
          obtain ⟨vm, hvm, hrest⟩ := Option.bind_eq_some.mp h
          rw [hvm, Option.some_bind] at h ⊢
          obtain ⟨⟨o1, m1⟩, ho1, hco⟩ := Option.map_eq_some'.mp hrest
          cases hco
          rw [ih _ _ _ _ ho1 y]
          cases hpy : pyFmtGo args .text m1 y <;> simp [hpy, List.append_assoc]
        · rw [if_neg h3] at h
          cases h

theorem pyFmtGo_lit (args : List (List Char)) (c : Char) (m : FmtMode)
    (hc1 : c ≠ '{') (hc2 : c ≠ '}') :
    pyFmtGo args .text m [c] = some ([c], m) := by
  rw [pyFmtGo, if_neg hc1, if_neg hc2]
  rfl

/-- Scanning a digit field body up to its closing brace resolves the
accumulated digits. -/
theorem pyFmtGo_field_digits (args : List (List Char)) :
    ∀ (ds : List Char) (acc : List Char) (m : FmtMode) (rest : List Char),
      (∀ c ∈ ds, c.isDigit = true) →
      pyFmtGo args (.field acc) m (ds ++ '}' :: rest) =
        (resolveField args (acc ++ ds) m).bind fun vm =>
          (pyFmtGo args .text vm.2 rest).map (fun p => (vm.1 ++ p.1, p.2)) := by
  intro ds
  induction ds with
  | nil =>
    intro acc m rest _
    rw [List.nil_append, pyFmtGo]
    have : ¬('}'.isDigit = true) := by decide
    rw [if_neg this, if_pos rfl, List.append_nil]
  | cons d ds ih =>
    intro acc m rest hall
    have hd : d.isDigit = true := hall d (List.mem_cons_self d ds)
    rw [List.cons_append, pyFmtGo, if_pos hd,
      ih (acc ++ [d]) m rest (fun c hc => hall c (List.mem_cons_of_mem d hc))]
    simp [List.append_assoc]

/-- Scanning the substituted group `{{{i}}}` from a non-automatic mode
emits `{`, the `i`-th expression, `}`, and leaves manual mode. -/
theorem pyFmtGo_group (args : List (List Char)) (i : Nat) (hi : i < args.length)
    (m : FmtMode) (hm : m = .start ∨ m = .manual) :
    pyFmtGo args .text m ('{' :: '{' :: '{' :: (natToDigits i ++ ['}', '}', '}'])) =
      some ('{' :: (args.get ⟨i, hi⟩ ++ ['}']), .manual) := by
  obtain ⟨d, ds, hds⟩ : ∃ d ds, natToDigits i = d :: ds := by
    match hm2 : natToDigits i, natToDigits_ne_nil i with
    | d :: ds, _ => exact ⟨d, ds, rfl⟩
  have hdl := natToDigits_all_digit i
  rw [hds] at hdl
  have hd0 : d.isDigit = true := hdl d (List.mem_cons_self d ds)
  have hdne : d ≠ '{' := by rintro rfl; simp at hd0
  have hstep : pyFmtGo args .text m ('{' :: '{' :: '{' :: (natToDigits i ++ ['}', '}', '}'])) =
      (pyFmtGo args (.field [d]) m (ds ++ '}' :: ['}', '}'])).map (fun p => ('{' :: p.1, p.2)) := by
    rw [hds]
    have e1 : pyFmtGo args .text m ('{' :: '{' :: '{' :: (d :: ds ++ ['}', '}', '}'])) =
        (pyFmtGo args .openBrace m (d :: ds ++ ['}', '}', '}'])).map
          (fun p => ('{' :: p.1, p.2)) := rfl
    rw [e1]
    congr 1
    have e2 : pyFmtGo args .openBrace m (d :: (ds ++ ['}', '}', '}'])) =
        (if d = '{' then
          (pyFmtGo args .text m (ds ++ ['}', '}', '}'])).map (fun p => ('{' :: p.1, p.2))
        else if d.isDigit then pyFmtGo args (.field [d]) m (ds ++ ['}', '}', '}'])
        else if d = '}' then
          (resolveField args [] m).bind fun vm =>
            (pyFmtGo args .text vm.2 (ds ++ ['}', '}', '}'])).map
              (fun p => (vm.1 ++ p.1, p.2))
        else none) := rfl
    rw [List.cons_append, e2, if_neg hdne, if_pos hd0]
  rw [hstep, pyFmtGo_field_digits args ds [d] m ['}', '}']
    (fun c hc => hdl c (List.mem_cons_of_mem d hc))]
  have hres : resolveField args ([d] ++ ds) m = some (args.get ⟨i, hi⟩, .manual) := by
    have hparse : parseNat ([d] ++ ds) = i := by
      have hp := parseNat_natToDigits i
      rw [hds] at hp
      exact hp
    have hget : args[parseNat ([d] ++ ds)]? = some (args.get ⟨i, hi⟩) := by
      rw [hparse, List.getElem?_eq_getElem hi]
      rfl
    rcases hm with rfl | rfl
    · have e : resolveField args ([d] ++ ds) FmtMode.start =
          (args[parseNat ([d] ++ ds)]?).map (fun v => (v, FmtMode.manual)) := rfl
      rw [e, hget]
      rfl
    · have e : resolveField args ([d] ++ ds) FmtMode.manual =
          (args[parseNat ([d] ++ ds)]?).map (fun v => (v, FmtMode.manual)) := rfl
      rw [e, hget]
      rfl
  rw [hres, Option.some_bind]
  have hclose : pyFmtGo args .text FmtMode.manual ['}', '}'] = some (['}'], .manual) := rfl
  rw [hclose]
  rfl

theorem get_indexOf_of_mem {α : Type} [BEq α] [LawfulBEq α] [DecidableEq α]
    (l : List α) (x : α) (h : x ∈ l) :
    l.get ⟨l.indexOf x, indexOf_lt_length_of_mem l x h⟩ = x := by
  induction l with
  | nil => cases h
  | cons a l ih =>
    by_cases hax : a = x
    · have hb : (a == x) = true := beq_iff_eq.mpr hax
      simp [List.indexOf_cons, hb, hax]
    · have hb : (a == x) = false := beq_eq_false_iff_ne.mpr hax
      have hx : x ∈ l := by
        rcases List.mem_cons.mp h with rfl | h2
        · exact absurd rfl hax
        · exact h2
      have := ih hx
      simp only [List.indexOf_cons, hb, cond_false]
      simpa using this

theorem strayFreeAux_cons (d : Nat) (c : Char) (cs : List Char)
    (h : strayFreeAux d (c :: cs) = true) :
    (c = '{' → strayFreeAux (d + 1) cs = true) ∧
    (c = '}' → d ≠ 0 ∧ strayFreeAux (d - 1) cs = true) ∧
    (c ≠ '{' → c ≠ '}' → strayFreeAux d cs = true) := by
  have he : strayFreeAux d (c :: cs) =
      (if c = '{' then strayFreeAux (d + 1) cs
       else if c = '}' then (if d = 0 then false else strayFreeAux (d - 1) cs)
       else strayFreeAux d cs) := rfl
  rw [he] at h
  by_cases h1 : c = '{'
  · rw [if_pos h1] at h
    exact ⟨fun _ => h, fun hc => absurd (h1 ▸ hc) (by rintro ⟨⟩), fun hc _ => absurd h1 hc⟩
  · rw [if_neg h1] at h
    by_cases h2 : c = '}'
    · rw [if_pos h2] at h
      refine ⟨fun hc => absurd hc h1, fun _ => ?_, fun _ hc => absurd h2 hc⟩
      by_cases hd : d = 0
      · rw [if_pos hd] at h; cases h
      · rw [if_neg hd] at h; exact ⟨hd, h⟩
    · rw [if_neg h2] at h
      exact ⟨fun hc => absurd hc h1, fun hc => absurd hc h2, fun _ _ => h⟩

/-! ## Claim C7: the round-trip invariant

The three machines — the split loop, the space injector and the format
scanner applied to the substituted output — advance in lockstep.  At
top level the scan of `subDollar logFormat` against any extension `E`
of the accumulated expressions reproduces the injector's output;
inside an expression the injector's output additionally holds the
pending `{` and the expression text read so far. -/

theorem c7_main : ∀ (cs : List Char) (ss : SplitState) (ist : InjState),
    dollarDigitFree cs = true →
    strayFreeAux ss.braceCount cs = true →
    ist.depth = ss.braceCount →
    ist.needSep = ss.needSeparator →
    (ss.needSeparator = true → ss.braceCount = 0) →
    (ss.braceCount = 0 → ss.needSeparator = false →
      subStA none ss.logFormat = none ∨
      (subStA none ss.logFormat = some [] ∧ ∀ d, cs.head? = some d → d.isDigit = false)) →
    (ss.braceCount = 0 →
      ∀ E, ss.expressions <+: E →
        ∃ m, pyFmtGo E .text .start (subDollar ss.logFormat) = some (ist.out, m) ∧
          (m = .start ∨ m = .manual)) →
    (ss.braceCount ≠ 0 →
      ∃ base, ist.out = base ++ '{' :: ss.currentExpression ∧
        ∀ E, ss.expressions <+: E →
          ∃ m, pyFmtGo E .text .start (subDollar ss.logFormat) = some (base, m) ∧
            (m = .start ∨ m = .manual)) →
    ((splitLoop ss cs).braceCount = 0 →
      ∀ E, (splitLoop ss cs).expressions <+: E →
        ∃ m, pyFmtGo E .text .start (subDollar (splitLoop ss cs).logFormat) =
          some ((cs.foldl injStep ist).out, m) ∧ (m = .start ∨ m = .manual)) := by
  intro cs
  induction cs with
  | nil =>
    intro ss ist _ _ _ _ _ _ htop _
    exact htop
  | cons c cs ih =>
    intro ss ist hfree hstray hsync1 hsync2 hns hstate htop hin
    obtain ⟨hfree', hdollar⟩ := dollarDigitFree_cons c cs hfree
    obtain ⟨hstray1, hstray2, hstray3⟩ := strayFreeAux_cons ss.braceCount c cs hstray
    rw [splitLoop, List.foldl_cons]
    by_cases hc1 : c = '{'
    · subst hc1
      rw [splitStep_open]
      have hstray' := hstray1 rfl
      refine ih _ _ hfree' hstray' ?_ ?_ ?_ ?_ ?_ ?_
      · show depthStep ist.depth '{' = ss.braceCount + 1
        rw [hsync1]; simp [depthStep]
      · show decide (ist.depth = 1 ∧ '{' = '}') = false
        simp
      · intro h; simp at h
      · intro hbc; simp at hbc
      · intro hbc; simp at hbc
      · intro _
        by_cases hb0 : ss.braceCount = 0
        · refine ⟨ist.out, ?_, ?_⟩
          · show ist.out ++ (if ist.needSep && '{'.isDigit then [' ', '{'] else ['{']) =
              ist.out ++ '{' :: (if ss.braceCount ≠ 0 then ss.currentExpression ++ ['{'] else [])
            simp [hb0]
          · intro E hpre
            exact htop hb0 E hpre
        · obtain ⟨base, hout, hmerge⟩ := hin hb0
          refine ⟨base, ?_, hmerge⟩
          show ist.out ++ (if ist.needSep && '{'.isDigit then [' ', '{'] else ['{']) =
            base ++ '{' :: (if ss.braceCount ≠ 0 then ss.currentExpression ++ ['{'] else [])
          rw [hout]
          simp [hb0]
    · by_cases hc2 : c = '}'
      · subst hc2
        by_cases hb0 : ss.braceCount = 0
        · exact absurd hb0 (hstray2 rfl).1
        · by_cases hb1 : ss.braceCount = 1
          · rw [splitStep_subst ss hb1]
            obtain ⟨base, hout, hmerge⟩ := hin hb0
            have hstray' : strayFreeAux 0 cs = true := by
              have := (hstray2 rfl).2
              rw [hb1] at this
              exact this
            refine ih _ _ hfree' hstray' ?_ ?_ ?_ ?_ ?_ ?_
            · show depthStep ist.depth '}' = 0
              rw [hsync1, hb1]; simp [depthStep]
            · show decide (ist.depth = 1 ∧ '}' = '}') = true
              rw [hsync1, hb1]; simp
            · intro _; rfl
            · intro _ hfalse; simp at hfalse
            · intro _ E hpre
              have hpre0 : ss.expressions <+: E := by
                by_cases hmem : ss.currentExpression ∈ ss.expressions
                · simpa [hmem] using hpre
                · refine List.IsPrefix.trans ?_ (by simpa [hmem] using hpre)
                  exact ⟨[ss.currentExpression], rfl⟩
              obtain ⟨mOld, hfmt, hok⟩ := hmerge E hpre0
              set i := (if ss.currentExpression ∈ ss.expressions
                then ss.expressions.indexOf ss.currentExpression
                else ss.expressions.length) with hidef
              have hiE : i < E.length := by
                by_cases hmem : ss.currentExpression ∈ ss.expressions
                · have hlt : i < ss.expressions.length := by
                    rw [hidef]; simpa [hmem] using indexOf_lt_length_of_mem _ _ hmem
                  exact Nat.lt_of_lt_of_le hlt hpre0.length_le
                · have h1 : i = ss.expressions.length := by rw [hidef]; simp [hmem]
                  have h2 : (ss.expressions ++ [ss.currentExpression]) <+: E := by
                    simpa [hmem] using hpre
                  have h3 : ss.expressions.length + 1 ≤ E.length := by
                    have := h2.length_le
                    simpa using this
                  omega
              have hq : E[i]? = some ss.currentExpression := by
                by_cases hmem : ss.currentExpression ∈ ss.expressions
                · have hilt : i < ss.expressions.length := by
                    rw [hidef]; simpa [hmem] using indexOf_lt_length_of_mem _ _ hmem
                  obtain ⟨t, rfl⟩ := hpre0
                  rw [List.getElem?_append_left hilt,
                    List.getElem?_eq_getElem hilt]
                  have hval : ss.expressions.get ⟨ss.expressions.indexOf ss.currentExpression,
                      indexOf_lt_length_of_mem _ _ hmem⟩ = ss.currentExpression :=
                    get_indexOf_of_mem _ _ hmem
                  have : ss.expressions[i] = ss.currentExpression := by
                    simpa [hidef, hmem] using hval
                  rw [this]
                · have h1 : i = ss.expressions.length := by rw [hidef]; simp [hmem]
                  have h2 : (ss.expressions ++ [ss.currentExpression]) <+: E := by
                    simpa [hmem] using hpre
                  obtain ⟨t, rfl⟩ := h2
                  have hlen : i < (ss.expressions ++ [ss.currentExpression]).length := by
                    simp [h1]
                  rw [List.getElem?_append_left hlen, List.getElem?_eq_getElem hlen]
                  have : (ss.expressions ++ [ss.currentExpression])[i] =
                      ss.currentExpression :=
                    List.getElem_concat_length ss.expressions ss.currentExpression i h1 hlen
                  rw [this]
              have hgetE : E.get ⟨i, hiE⟩ = ss.currentExpression := by
                have h0 := List.getElem?_eq_getElem hiE
                rw [hq] at h0
                exact (Option.some.inj h0).symm
              have hsub := subDollar_append_token ss.logFormat i
              rw [hsub.1]
              rw [pyFmtGo_append E (subDollar ss.logFormat) _ _ _ _ hfmt]
              rw [pyFmtGo_group E i hiE mOld hok]
              refine ⟨.manual, ?_, Or.inr rfl⟩
              rw [Option.map_some']
              have houtnew : (injStep ist '}').out = base ++ '{' :: ss.currentExpression
                  ++ ['}'] := by
                show ist.out ++ (if ist.needSep && '}'.isDigit then [' ', '}'] else ['}']) = _
                rw [hout]
                simp
              rw [houtnew, hgetE]
              simp
            · intro hfalse; exact absurd rfl hfalse
          · rw [splitStep_closeNested ss hb0 hb1]
            have hstray' : strayFreeAux (ss.braceCount - 1) cs = true := (hstray2 rfl).2
            refine ih _ _ hfree' hstray' ?_ ?_ ?_ ?_ ?_ ?_
            · show depthStep ist.depth '}' = ss.braceCount - 1
              rw [hsync1]; simp [depthStep, hb0]
            · show decide (ist.depth = 1 ∧ '}' = '}') = false
              rw [hsync1]; simp [hb1]
            · intro h; simp at h
            · intro hbc; exfalso; have : ss.braceCount - 1 = 0 := hbc; omega
            · intro hbc; exfalso; have : ss.braceCount - 1 = 0 := hbc; omega
            · intro _
              obtain ⟨base, hout, hmerge⟩ := hin hb0
              refine ⟨base, ?_, hmerge⟩
              show ist.out ++ (if ist.needSep && '}'.isDigit then [' ', '}'] else ['}']) =
                base ++ '{' :: (ss.currentExpression ++ ['}'])
              rw [hout]
              simp
      · by_cases hb0 : ss.braceCount = 0
        · rw [splitStep_topLit ss c hc1 hc2 hb0]
          have hstray' : strayFreeAux ss.braceCount cs = true := hstray3 hc1 hc2
          by_cases hsep : ss.needSeparator && c.isDigit
          · rw [if_pos hsep]
            have hdig : c.isDigit = true := (Bool.and_eq_true _ _ |>.mp hsep).2
            have hnsep : ss.needSeparator = true := (Bool.and_eq_true _ _ |>.mp hsep).1
            have h1 := subDollar_append_nondigit ss.logFormat ' ' (by decide)
            have hstn : subStA none (ss.logFormat ++ [' ']) = none := by
              rw [h1.2.2]; simp
            have h2 := subDollar_append_digit_none (ss.logFormat ++ [' ']) c hdig hstn
            refine ih _ _ hfree' hstray' ?_ ?_ ?_ ?_ ?_ ?_
            · show depthStep ist.depth c = ss.braceCount
              rw [hsync1]; simp [depthStep, hc1, hc2]
            · show decide (ist.depth = 1 ∧ c = '}') = false
              simp [hc2]
            · intro h; simp at h
            · intro _ _
              left
              exact h2.2.2
            · intro _ E hpre
              obtain ⟨m, hfmt, hok⟩ := htop hb0 E hpre
              refine ⟨m, ?_, hok⟩
              show pyFmtGo E .text .start (subDollar (ss.logFormat ++ [' '] ++ [c])) =
                some ((injStep ist c).out, m)
              rw [h2.1, h1.1, List.append_assoc]
              rw [pyFmtGo_append E (subDollar ss.logFormat) _ _ _ _ hfmt,
                pyFmtGo_append E [' '] .text m [' '] m (pyFmtGo_lit E ' ' m (by decide) (by decide)),
                pyFmtGo_lit E c m hc1 hc2]
              show _ = some (ist.out ++ (if ist.needSep && c.isDigit then [' ', c] else [c]), m)
              rw [hsync2, if_pos hsep]
              simp
            · intro hbc; exact absurd hb0 hbc
          · rw [if_neg hsep]
            by_cases hdig : c.isDigit
            · have hnsf : ss.needSeparator = false := by
                cases hx : ss.needSeparator
                · rfl
                · exfalso; apply hsep; rw [hx, hdig]; rfl
              have hstn : subStA none ss.logFormat = none := by
                rcases hstate hb0 hnsf with h | ⟨ha, hb⟩
                · exact h
                · exact absurd hdig (by simp [hb c rfl])
              have h2 := subDollar_append_digit_none ss.logFormat c hdig hstn
              refine ih _ _ hfree' hstray' ?_ ?_ ?_ ?_ ?_ ?_
              · show depthStep ist.depth c = ss.braceCount
                rw [hsync1]; simp [depthStep, hc1, hc2]
              · show decide (ist.depth = 1 ∧ c = '}') = false
                simp [hc2]
              · intro h; simp at h
              · intro _ _
                left
                exact h2.2.2
              · intro _ E hpre
                obtain ⟨m, hfmt, hok⟩ := htop hb0 E hpre
                refine ⟨m, ?_, hok⟩
                show pyFmtGo E .text .start (subDollar (ss.logFormat ++ [c])) =
                  some ((injStep ist c).out, m)
                rw [h2.1]
                rw [pyFmtGo_append E (subDollar ss.logFormat) _ _ _ _ hfmt,
                  pyFmtGo_lit E c m hc1 hc2]
                show _ = some (ist.out ++ (if ist.needSep && c.isDigit then [' ', c] else [c]), m)
                rw [hsync2, hnsf]
                simp
              · intro hbc; exact absurd hb0 hbc
            · have h1 := subDollar_append_nondigit ss.logFormat c (by simpa using hdig)
              refine ih _ _ hfree' hstray' ?_ ?_ ?_ ?_ ?_ ?_
              · show depthStep ist.depth c = ss.braceCount
                rw [hsync1]; simp [depthStep, hc1, hc2]
              · show decide (ist.depth = 1 ∧ c = '}') = false
                simp [hc2]
              · intro h; simp at h
              · intro _ _
                by_cases hds : c = '$'
                · right
                  refine ⟨?_, fun d hd => hdollar hds d hd⟩
                  rw [h1.2.2, if_pos hds]
                · left
                  rw [h1.2.2, if_neg hds]
              · intro _ E hpre
                obtain ⟨m, hfmt, hok⟩ := htop hb0 E hpre
                refine ⟨m, ?_, hok⟩
                show pyFmtGo E .text .start (subDollar (ss.logFormat ++ [c])) =
                  some ((injStep ist c).out, m)
                rw [h1.1]
                rw [pyFmtGo_append E (subDollar ss.logFormat) _ _ _ _ hfmt,
                  pyFmtGo_lit E c m hc1 hc2]
                show _ = some (ist.out ++ (if ist.needSep && c.isDigit then [' ', c] else [c]), m)
                rw [hsync2]
                have : (ss.needSeparator && c.isDigit) = false := by
                  simpa using hsep
                rw [this]
                simp
              · intro hbc; exact absurd hb0 hbc
        · have hnsf : ss.needSeparator = false := by
            cases hx : ss.needSeparator
            · rfl
            · exact absurd (hns hx) hb0
          rw [splitStep_inExpr ss c hc1 hc2 hb0 hnsf]
          have hstray' : strayFreeAux ss.braceCount cs = true := hstray3 hc1 hc2
          refine ih _ _ hfree' hstray' ?_ ?_ ?_ ?_ ?_ ?_
          · show depthStep ist.depth c = ss.braceCount
            rw [hsync1]; simp [depthStep, hc1, hc2]
          · show decide (ist.depth = 1 ∧ c = '}') = false
            simp [hc2]
          · intro h; simp at h
          · intro hbc; exact absurd hbc hb0
          · intro hbc; exact absurd hbc hb0
          · intro _
            obtain ⟨base, hout, hmerge⟩ := hin hb0
            refine ⟨base, ?_, hmerge⟩
            show ist.out ++ (if ist.needSep && c.isDigit then [' ', c] else [c]) =
              base ++ '{' :: (ss.currentExpression ++ [c])
            rw [hout, hsync2, hnsf]
            simp

/-- C7 as stated is false: `Split("$0") = ("$0", [])` succeeds, but
`Merge("$0", [])` raises (`IndexError`, modelled as `none`) instead of
reconstructing `"$0"`: the round trip fails on inputs containing a
literal `$` followed by a digit. -/
theorem c7_counterexample :
    splitLogExpressions "$0".toList = some ("$0".toList, []) ∧
    mergeLogExpressions "$0".toList [] = none := by decide

/-- C7 amended: for every format string with balanced top-level braces
that contains no literal `$` immediately followed by a digit and no
unmatched top-level `}`, `Merge` applied to the output of `Split`
reconstructs the input up to the single separator spaces `Split`
injects after substituted expressions that are immediately followed by
a digit; in particular
`Merge("a=$0, b=$1", ["a","b"]) = "a={a}, b={b}"`. -/
theorem c7_round_trip :
    (∀ fmt, dollarDigitFree fmt = true → strayCloseFree fmt = true →
      ∀ enc exprs, splitLogExpressions fmt = some (enc, exprs) →
        mergeLogExpressions enc exprs = some (spaceInject fmt)) ∧
    mergeLogExpressions "a=$0, b=$1".toList ["a".toList, "b".toList] =
      some "a={a}, b={b}".toList := by
  refine ⟨?_, by decide⟩
  intro fmt hfree hstray enc exprs hsplit
  rw [splitLogExpressions] at hsplit
  by_cases hbc : (splitLoop initSplitState fmt).braceCount ≠ 0
  · rw [if_pos hbc] at hsplit; cases hsplit
  · rw [if_neg hbc] at hsplit
    simp only [Option.some.injEq, Prod.mk.injEq] at hsplit
    obtain ⟨henc, hexprs⟩ := hsplit
    have hbc0 : (splitLoop initSplitState fmt).braceCount = 0 := not_ne_iff.mp hbc
    have hmain := c7_main fmt initSplitState ⟨[], 0, false⟩ hfree hstray rfl rfl
      (by intro h; simp [initSplitState] at h)
      (by intro _ _; left; rfl)
      (by
        intro _ E _
        exact ⟨.start, rfl, Or.inl rfl⟩)
      (by intro h; exact absurd rfl h)
    obtain ⟨m, hfmt, _⟩ := hmain hbc0 exprs (by rw [← hexprs])
    rw [mergeLogExpressions, ← henc, hfmt]
    rfl

/-- Witness for C7 at the spec's worked example. -/
theorem c7_round_trip_witness :
    mergeLogExpressions "a=$0, b=$1".toList ["a".toList, "b".toList] =
      some (spaceInject "a={a}, b={b}".toList) :=
  c7_round_trip.1 "a={a}, b={b}".toList (by decide) (by decide)
    "a=$0, b=$1".toList ["a".toList, "b".toList] (by decide)

/-! ## Claim C10: partiality of Merge -/

theorem head_dropWhile_not_digit : ∀ (l : List Char) (d : Char),
    (l.dropWhile Char.isDigit).head? = some d → d.isDigit = false := by
  intro l
  induction l with
  | nil => intro d h; simp [List.dropWhile] at h
  | cons c t ih =>
    intro d h
    rw [List.dropWhile_cons] at h
    by_cases hc : c.isDigit
    · rw [if_pos hc] at h; exact ih d h
    · rw [if_neg hc] at h
      simp only [List.head?_cons, Option.some.injEq] at h
      subst h; simpa using hc

/-- One unfolding step of the three scanner outputs. -/
theorem subPre_cons (st : Option (List Char)) (c : Char) (l : List Char) :
    subPre st (c :: l) =
      (if c = '$' then flushSub st ++ subPre (some []) l
       else if c.isDigit then
         (match st with
          | some ds => subPre (some (ds ++ [c])) l
          | none => c :: subPre none l)
       else flushSub st ++ c :: subPre none l) := rfl

theorem tokensPre_cons (st : Option (List Char)) (c : Char) (l : List Char) :
    tokensPre st (c :: l) =
      (if c = '$' then flushTok st ++ tokensPre (some []) l
       else if c.isDigit then
         (match st with
          | some ds => tokensPre (some (ds ++ [c])) l
          | none => tokensPre none l)
       else flushTok st ++ tokensPre none l) := rfl

/-- A non-digit head flushes any pending run and resets the scanners
to the ground state. -/
theorem subPre_nondigit_head (st : Option (List Char)) (c : Char) (t : List Char)
    (h : c.isDigit = false) :
    subPre st (c :: t) = flushSub st ++ subPre none (c :: t) ∧
    subStA st (c :: t) = subStA none (c :: t) ∧
    tokensPre st (c :: t) = flushTok st ++ tokensPre none (c :: t) := by
  by_cases hd : c = '$'
  · subst hd
    refine ⟨?_, ?_, ?_⟩
    · rw [subPre_cons, subPre_cons]
      simp [flushSub]
    · rw [subStA_cons, subStA_cons]
      have h1 : subNext st '$' = some [] := by simp [subNext]
      have h2 : subNext none '$' = some [] := by simp [subNext]
      rw [h1, h2]
    · rw [tokensPre_cons, tokensPre_cons]
      simp [flushTok]
  · refine ⟨?_, ?_, ?_⟩
    · rw [subPre_cons, subPre_cons, if_neg hd, if_neg hd, if_neg (by simp [h]),
        if_neg (by simp [h])]
      simp [flushSub]
    · rw [subStA_cons, subStA_cons]
      have h1 : subNext st c = none := by simp [subNext, hd, h]
      have h2 : subNext none c = none := by simp [subNext, hd, h]
      rw [h1, h2]
    · rw [tokensPre_cons, tokensPre_cons, if_neg hd, if_neg hd, if_neg (by simp [h]),
        if_neg (by simp [h])]
      simp [flushTok]

/-- A head character that opens no `$digits` run is copied through. -/
theorem subDollar_cons_lit (c : Char) (l : List Char)
    (h : c = '$' → ∀ d, l.head? = some d → d.isDigit = false) :
    subDollar (c :: l) = c :: subDollar l ∧ dollarTokens (c :: l) = dollarTokens l := by
  by_cases hd : c = '$'
  · subst hd
    have hstep1 : subPre none ('$' :: l) = subPre (some []) l := by
      rw [subPre_cons]; simp [flushSub]
    have hstep2 : subStA none ('$' :: l) = subStA (some []) l := by
      rw [subStA_cons]
      have : subNext none '$' = some [] := by simp [subNext]
      rw [this]
    have hstep3 : tokensPre none ('$' :: l) = tokensPre (some []) l := by
      rw [tokensPre_cons]; simp [flushTok]
    cases l with
    | nil =>
      refine ⟨?_, ?_⟩ <;> rfl
    | cons c2 t =>
      have hc2 : c2.isDigit = false := h rfl c2 rfl
      obtain ⟨hp, hs, ht⟩ := subPre_nondigit_head (some []) c2 t hc2
      constructor
      · rw [subDollar, subDollar, hstep1, hstep2, hp, hs]
        simp [flushSub]
      · rw [dollarTokens, dollarTokens, hstep3, hstep2, ht, hs]
        simp [flushTok]
  · constructor
    · rw [subDollar, subDollar, subPre_cons, if_neg hd, subStA_cons]
      have hn : subNext none c = none := by simp [subNext, hd]
      rw [hn]
      by_cases hdig : c.isDigit
      · rw [if_pos hdig]
        simp
      · rw [if_neg hdig]
        simp [flushSub]
    · rw [dollarTokens, dollarTokens, tokensPre_cons, if_neg hd, subStA_cons]
      have hn : subNext none c = none := by simp [subNext, hd]
      rw [hn]
      by_cases hdig : c.isDigit
      · rw [if_pos hdig]
      · rw [if_neg hdig]
        simp [flushTok]

/-- A `$` followed by a non-empty digit run becomes the substituted
group in front, with its token first. -/
theorem subDollar_token_head (ds rest : List Char) (hne : ds ≠ [])
    (hdig : ∀ c ∈ ds, c.isDigit = true)
    (hr : ∀ d, rest.head? = some d → d.isDigit = false) :
    subDollar ('$' :: (ds ++ rest)) =
      ('{' :: '{' :: '{' :: (ds ++ ['}', '}', '}'])) ++ subDollar rest ∧
    dollarTokens ('$' :: (ds ++ rest)) = parseNat ds :: dollarTokens rest := by
  have hflush : flushSub (some ds) = '{' :: '{' :: '{' :: (ds ++ ['}', '}', '}']) := by
    match hm : ds, hne with
    | d :: ds2, _ => simp [flushSub]
  have hflushT : flushTok (some ds) = [ds] := by
    match hm : ds, hne with
    | d :: ds2, _ => simp [flushTok]
  have hstep1 : subPre none ('$' :: (ds ++ rest)) = subPre (some ds) rest := by
    rw [subPre_cons]
    simp only [if_pos rfl, flushSub, List.nil_append]
    rw [subPre_append, (subPre_digits ds [] hdig).1, (subPre_digits ds [] hdig).2]
    simp
  have hstep2 : subStA none ('$' :: (ds ++ rest)) = subStA (some ds) rest := by
    rw [subStA_cons]
    have : subNext none '$' = some [] := by simp [subNext]
    rw [this, subStA_append, (subPre_digits ds [] hdig).2]
    simp
  have hstep3 : tokensPre none ('$' :: (ds ++ rest)) = tokensPre (some ds) rest := by
    rw [tokensPre_cons]
    simp only [if_pos rfl, flushTok, List.nil_append]
    rw [tokensPre_append, tokensPre_digits ds [] hdig, (subPre_digits ds [] hdig).2]
    simp
  cases rest with
  | nil =>
    constructor
    · rw [subDollar, subDollar, hstep1, hstep2]
      show subPre (some ds) [] ++ flushSub (subStA (some ds) []) = _
      show [] ++ flushSub (some ds) = _
      rw [hflush]
      simp [subPre, subStA, flushSub]
    · rw [dollarTokens, dollarTokens, hstep3, hstep2]
      show (tokensPre (some ds) [] ++ flushTok (subStA (some ds) [])).map parseNat = _
      show (([] : List (List Char)) ++ flushTok (some ds)).map parseNat = _
      rw [hflushT]
      simp [tokensPre, subStA, flushTok]
  | cons c2 t =>
    have hc2 : c2.isDigit = false := hr c2 rfl
    obtain ⟨hp, hs, ht⟩ := subPre_nondigit_head (some ds) c2 t hc2
    constructor
    · rw [subDollar, subDollar, hstep1, hstep2, hp, hs, hflush]
      simp [List.append_assoc]
    · rw [dollarTokens, dollarTokens, hstep3, hstep2, ht, hs, hflushT]
      simp

/-- Two closing braces in text phase emit one literal `}`. -/
theorem pyFmtGo_two_rbrace (args : List (List Char)) (m : FmtMode) (X : List Char) :
    pyFmtGo args .text m ('}' :: '}' :: X) =
      (pyFmtGo args .text m X).map (fun p => ('}' :: p.1, p.2)) := rfl

/-- Scanning a substituted group `{{{ds}}}` followed by anything:
the literal `{`, then the field `ds` resolved, then the literal `}`. -/
theorem pyFmtGo_group_step (args : List (List Char)) (d : Char) (ds' X : List Char)
    (hd : d.isDigit = true) (hds : ∀ c ∈ ds', c.isDigit = true) (m : FmtMode) :
    pyFmtGo args .text m ('{' :: '{' :: '{' :: d :: (ds' ++ ('}' :: '}' :: '}' :: X))) =
      ((resolveField args (d :: ds') m).bind fun vm =>
        (pyFmtGo args .text vm.2 ('}' :: '}' :: X)).map
          (fun p => (vm.1 ++ p.1, p.2))).map (fun p => ('{' :: p.1, p.2)) := by
  have hdne : d ≠ '{' := by rintro rfl; simp at hd
  have e1 : pyFmtGo args .text m ('{' :: '{' :: '{' :: d :: (ds' ++ ('}' :: '}' :: '}' :: X))) =
      (pyFmtGo args .openBrace m (d :: (ds' ++ ('}' :: '}' :: '}' :: X)))).map
        (fun p => ('{' :: p.1, p.2)) := rfl
  rw [e1]
  congr 1
  have e3 : pyFmtGo args .openBrace m (d :: (ds' ++ ('}' :: '}' :: '}' :: X))) =
      (if d = '{' then
        (pyFmtGo args .text m (ds' ++ ('}' :: '}' :: '}' :: X))).map (fun p => ('{' :: p.1, p.2))
      else if d.isDigit then pyFmtGo args (.field [d]) m (ds' ++ ('}' :: '}' :: '}' :: X))
      else if d = '}' then
        (resolveField args [] m).bind fun vm =>
          (pyFmtGo args .text vm.2 (ds' ++ ('}' :: '}' :: '}' :: X))).map
            (fun p => (vm.1 ++ p.1, p.2))
      else none) := rfl
  rw [e3, if_neg hdne, if_pos hd,
    pyFmtGo_field_digits args ds' [d] m ('}' :: '}' :: X) hds]
  rfl

/-- A brace-free encoded string whose substituted form formats
successfully only carries in-range `$` tokens. -/
theorem c10_main : ∀ (n : Nat) (enc : List Char), enc.length ≤ n →
    (∀ c ∈ enc, c ≠ '{' ∧ c ≠ '}') →
    ∀ (args : List (List Char)) (m : FmtMode),
      (pyFmtGo args .text m (subDollar enc)).isSome = true →
      ∀ t ∈ dollarTokens enc, t < args.length := by
  intro n
  induction n with
  | zero =>
    intro enc hlen _ args m _ t ht
    have he : enc = [] := List.eq_nil_of_length_eq_zero (Nat.le_zero.mp hlen)
    subst he
    exact absurd ht (List.not_mem_nil t)
  | succ n ih =>
    intro enc hlen hbr args m hsucc t ht
    cases enc with
    | nil => exact absurd ht (List.not_mem_nil t)
    | cons c rest =>
      by_cases hlit : c = '$' → ∀ d, rest.head? = some d → d.isDigit = false
      · obtain ⟨hsub, htok⟩ := subDollar_cons_lit c rest hlit
        rw [htok] at ht
        rw [hsub] at hsucc
        obtain ⟨hc1, hc2⟩ := hbr c (List.mem_cons_self c rest)
        have e : pyFmtGo args .text m (c :: subDollar rest) =
            (pyFmtGo args .text m (subDollar rest)).map (fun p => (c :: p.1, p.2)) := by
          rw [pyFmtGo, if_neg hc1, if_neg hc2]
        rw [e] at hsucc
        cases hY : pyFmtGo args .text m (subDollar rest) with
        | none => rw [hY] at hsucc; simp at hsucc
        | some p =>
          exact ih rest (Nat.le_of_succ_le_succ hlen)
            (fun c' hc' => hbr c' (List.mem_cons_of_mem c hc')) args m
            (by rw [hY]; rfl) t ht
      · push_neg at hlit
        obtain ⟨hdol, d, hhead, hd'⟩ := hlit
        subst hdol
        have hd : d.isDigit = true := by
          revert hd'; cases d.isDigit <;> simp
        cases rest with
        | nil => simp at hhead
        | cons r0 t0 =>
          have hr0 : r0 = d := by simpa using hhead
          subst hr0
          have htw : (r0 :: t0).takeWhile Char.isDigit =
              r0 :: t0.takeWhile Char.isDigit := List.takeWhile_cons_of_pos hd
          have hdw : (r0 :: t0).dropWhile Char.isDigit =
              t0.dropWhile Char.isDigit := List.dropWhile_cons_of_pos hd
          have hsplit2 : t0.takeWhile Char.isDigit ++ t0.dropWhile Char.isDigit = t0 :=
            List.takeWhile_append_dropWhile Char.isDigit t0
          have hdig : ∀ c ∈ r0 :: t0.takeWhile Char.isDigit, c.isDigit = true := by
            intro c hc
            rcases List.mem_cons.mp hc with rfl | hc2
            · exact hd
            · exact List.mem_takeWhile_imp hc2
          have hne : (r0 :: t0.takeWhile Char.isDigit) ≠ ([] : List Char) := by
            exact List.cons_ne_nil _ _
          have hrr : ∀ d', (t0.dropWhile Char.isDigit).head? = some d' →
              d'.isDigit = false := fun d' h' => head_dropWhile_not_digit t0 d' h'
          obtain ⟨hsub, htok⟩ := subDollar_token_head (r0 :: t0.takeWhile Char.isDigit)
            (t0.dropWhile Char.isDigit) hne hdig hrr
          rw [List.cons_append, hsplit2] at hsub htok
          rw [htok] at ht
          rw [hsub] at hsucc
          have hform : ('{' :: '{' :: '{' ::
                ((r0 :: t0.takeWhile Char.isDigit) ++ ['}', '}', '}'])) ++
                subDollar (t0.dropWhile Char.isDigit) =
              '{' :: '{' :: '{' :: r0 :: (t0.takeWhile Char.isDigit ++
                ('}' :: '}' :: '}' :: subDollar (t0.dropWhile Char.isDigit))) := by
            simp [List.cons_append, List.append_assoc]
          rw [hform, pyFmtGo_group_step args r0 (t0.takeWhile Char.isDigit)
            (subDollar (t0.dropWhile Char.isDigit)) hd
            (fun c hc => List.mem_takeWhile_imp hc) m] at hsucc
          cases hres : resolveField args (r0 :: t0.takeWhile Char.isDigit) m with
          | none => rw [hres] at hsucc; simp at hsucc
          | some vm =>
            have hbound : parseNat (r0 :: t0.takeWhile Char.isDigit) < args.length := by
              cases m with
              | start =>
                have e : resolveField args (r0 :: t0.takeWhile Char.isDigit) FmtMode.start =
                    (args[parseNat (r0 :: t0.takeWhile Char.isDigit)]?).map
                      (fun v => (v, FmtMode.manual)) := rfl
                rw [e] at hres
                cases hg : args[parseNat (r0 :: t0.takeWhile Char.isDigit)]? with
                | none => rw [hg] at hres; simp at hres
                | some v =>
                  obtain ⟨hlt, -⟩ := List.getElem?_eq_some.mp hg
                  exact hlt
              | manual =>
                have e : resolveField args (r0 :: t0.takeWhile Char.isDigit) FmtMode.manual =
                    (args[parseNat (r0 :: t0.takeWhile Char.isDigit)]?).map
                      (fun v => (v, FmtMode.manual)) := rfl
                rw [e] at hres
                cases hg : args[parseNat (r0 :: t0.takeWhile Char.isDigit)]? with
                | none => rw [hg] at hres; simp at hres
                | some v =>
                  obtain ⟨hlt, -⟩ := List.getElem?_eq_some.mp hg
                  exact hlt
              | auto k =>
                have e : resolveField args (r0 :: t0.takeWhile Char.isDigit)
                    (FmtMode.auto k) = none := rfl
                rw [e] at hres
                exact absurd hres (by simp)
            rcases List.mem_cons.mp ht with rfl | ht2
            · exact hbound
            · rw [hres] at hsucc
              rw [Option.some_bind, pyFmtGo_two_rbrace] at hsucc
              cases hY : pyFmtGo args .text vm.2 (subDollar (t0.dropWhile Char.isDigit)) with
              | none => rw [hY] at hsucc; simp at hsucc
              | some p =>
                have hlen2 : (t0.dropWhile Char.isDigit).length ≤ n := by
                  have h1 : t0.length + 2 ≤ n + 1 := by simpa using hlen
                  have h2 : (t0.dropWhile Char.isDigit).length ≤ t0.length := by
                    have := congrArg List.length hsplit2
                    rw [List.length_append] at this
                    omega
                  omega
                have hbr2 : ∀ c ∈ t0.dropWhile Char.isDigit, c ≠ '{' ∧ c ≠ '}' := by
                  intro c hc
                  have : c ∈ t0 := by
                    rw [← hsplit2]
                    exact List.mem_append_right _ hc
                  exact hbr c (List.mem_cons_of_mem _ (List.mem_cons_of_mem _ this))
                exact ih (t0.dropWhile Char.isDigit) hlen2 hbr2 args vm.2
                  (by rw [hY]; rfl) t ht2

/-! ## Claim C8 -/

/-- C8: `SplitLogExpressions` fails with a format error if and only if
some top-level `{` is never closed by end of input (a positive final
brace depth); an unmatched `}` at top level is not an error and is
copied through literally (the depth never goes negative); empty input
yields `("", [])`; and `Split("{a")` fails. -/
theorem c8_split_failure_iff :
    (∀ fmt, splitLogExpressions fmt = none ↔ braceDepth fmt ≠ 0) ∧
    (∀ s : SplitState, s.braceCount = 0 →
      splitStep s '}' = { s with logFormat := s.logFormat ++ ['}'], needSeparator := false }) ∧
    splitLogExpressions [] = some ([], []) ∧
    splitLogExpressions "\x7ba".toList = none ∧
    splitLogExpressions "\x7d".toList = some ("\x7d".toList, []) := by
  refine ⟨?_, ?_, by decide, by decide, by decide⟩
  · intro fmt
    simp only [splitLogExpressions, braceDepth, splitLoop_braceCount]
    have h0 : initSplitState.braceCount = 0 := rfl
    rw [h0]
    by_cases h : fmt.foldl depthStep 0 ≠ 0 <;> simp [h]
  · intro s h
    simp [splitStep, h]

/-- Witness for C8 at a concrete state: a stray `}` at depth 0 is
copied literally. -/
theorem c8_split_failure_iff_witness :
    initSplitState.braceCount = 0 ∧
    splitStep initSplitState '}' =
      { initSplitState with logFormat := ['}'], needSeparator := false } := by
  refine ⟨rfl, ?_⟩
  have h := c8_split_failure_iff.2.1 initSplitState rfl
  simpa using h

/-! ## Claim C9 -/

/-- C9: in the output of `SplitLogExpressions`, exactly one space is
inserted after a substituted `$N` token when the next original
character is a digit and none otherwise: each loop step first appends a
single space exactly when the separator flag is set and the incoming
character is a digit, and the separator flag is set exactly by a `}`
closing a top-level expression; `Split("{a}5") = ("$0 5", ["a"])`. -/
theorem c9_separator_insertion :
    (∀ (s : SplitState) (c : Char),
      splitStep s c = splitStep { s with
        needSeparator := false,
        logFormat := s.logFormat ++ (if s.needSeparator && c.isDigit then [' '] else []) } c) ∧
    (∀ (s : SplitState) (c : Char),
      (splitStep s c).needSeparator = true ↔ (s.braceCount = 1 ∧ c = '}')) ∧
    splitLogExpressions "{a}5".toList = some ("$0 5".toList, ["a".toList]) := by
  refine ⟨?_, ?_, by decide⟩
  · intro s c
    simp only [splitStep]
    cases h : s.needSeparator && c.isDigit <;> simp [h]
  · intro s c
    simp only [splitStep]
    split_ifs <;> simp_all

/-! ## Claim C6 -/

theorem mem_dedup_aux (l : List String) :
    ∀ (acc : List String) (x : String),
      (x ∈ l.foldl (fun a y => if y ∈ a then a else a ++ [y]) acc) ↔ x ∈ acc ∨ x ∈ l := by
  induction l with
  | nil => simp
  | cons y l ih =>
    intro acc x
    simp only [List.foldl_cons]
    by_cases hy : y ∈ acc
    · rw [if_pos hy, ih]
      simp only [List.mem_cons]
      constructor
      · rintro (h | h)
        · exact Or.inl h
        · exact Or.inr (Or.inr h)
      · rintro (h | rfl | h)
        · exact Or.inl h
        · exact Or.inl hy
        · exact Or.inr h
    · rw [if_neg hy, ih]
      simp only [List.mem_append, List.mem_cons, List.mem_singleton]
      tauto

theorem mem_dedup (l : List String) (x : String) : x ∈ dedup l ↔ x ∈ l := by
  rw [dedup, mem_dedup_aux]
  simp

/-- C6 as stated is false: the source pattern's third segment is
`[0-9a-f]+` (unbounded), so a 9-digit third segment is still
classified as an exact breakpoint ID, while the claimed pattern
`...-[0-9a-f]{1,8}$` rejects it. -/
theorem c6_counterexample :
    exactIds ["1234567890123-abcd-123456789"] = ["1234567890123-abcd-123456789"] ∧
    specBreakpointIdPattern "1234567890123-abcd-123456789" = false := by decide

/-- C6 amended: a string is classified by `ListMatchingBreakpoints` as
an exact breakpoint ID exactly when it is one of the inputs and matches
`^[0-9a-f]{13,16}-[0-9a-f]{4}-[0-9a-f]+$` — first segment 13-16 hex
digits, second exactly 4, third one or more (unbounded); every string
the spec's `{1,8}`-bounded pattern accepts is accepted; and
`"1234567890123-abcd-1"` is classified as an ID while `"xyz-abcd-1"`
is not. -/
theorem c6_id_classification :
    (∀ (inputs : List String) (s : String),
      s ∈ exactIds inputs ↔ s ∈ inputs ∧ breakpointIdPattern s = true) ∧
    (∀ s, specBreakpointIdPattern s = true → breakpointIdPattern s = true) ∧
    breakpointIdPattern "1234567890123-abcd-1" = true ∧
    breakpointIdPattern "xyz-abcd-1" = false := by
  refine ⟨?_, ?_, by decide, by decide⟩
  · intro inputs s
    rw [exactIds, mem_dedup, List.mem_filter]
  · intro s h
    unfold specBreakpointIdPattern at h
    unfold breakpointIdPattern
    simp only [Bool.and_eq_true] at h ⊢
    refine ⟨h.1, ?_⟩
    rcases h with ⟨-, h⟩
    split at h
    · simp only [Bool.and_eq_true] at h ⊢
      refine ⟨h.1, ?_⟩
      rcases h with ⟨-, h⟩
      split at h
      · simp only [Bool.and_eq_true, Bool.or_eq_true] at h ⊢
        exact ⟨h.1.1, h.2⟩
      · simp at h
    · simp at h

/-! ## Claims C2 and C3 -/

/-- C2: `DefaultDebuggee` implements exactly the spec's
`ResolveDefault` decision procedure: zero debuggees fail with
NoDebuggee, one is returned, and otherwise `LatestMinorVersion` over
all, the module-label filter (zero fails ambiguous, one returned),
`LatestMinorVersion` again, the version-label filter (zero fails
ambiguous, one returned), `LatestMinorVersion` once more, and finally
NoDebuggee, are applied in order until one yields a result. -/
theorem default_tail_comm (all C : List Debuggee) :
    (if h : C.length = 1 then Except.ok (C.get ⟨0, by omega⟩)
     else if C.isEmpty then .error (.multipleDebuggees none all)
     else match findLatestMinorVersion C with
       | .error e => .error (.valueError e)
       | .ok (some latest) => .ok latest
       | .ok none => .error (.noDebuggee none)) =
    (if C.isEmpty then Except.error (ResolveError.multipleDebuggees none all)
     else if h : C.length = 1 then .ok (C.get ⟨0, by omega⟩)
     else match findLatestMinorVersion C with
       | .error e => .error (.valueError e)
       | .ok (some latest) => .ok latest
       | .ok none => .error (.noDebuggee none)) := by
  rcases C with _ | ⟨d, _ | ⟨d2, t⟩⟩ <;> rfl

theorem c2_default_debuggee (ds : List Debuggee) :
    defaultDebuggee ds = defaultDebuggeeSpec ds := by
  rcases ds with _ | ⟨d1, _ | ⟨d2, t⟩⟩
  · rfl
  · rfl
  · simp only [defaultDebuggee, defaultDebuggeeSpec]
    rw [dif_neg (by simp)]
    rw [if_neg (by simp)]
    rcases hf : findLatestMinorVersion (d1 :: d2 :: t) with e | lo
    · rfl
    · rcases lo with _ | latest
      · simp only
        by_cases hm : ((d1 :: d2 :: t).filter (fun d => !pyTruthy d.module)).isEmpty
        · rw [if_pos hm, if_pos hm]
        · rw [if_neg hm, if_neg hm]
          by_cases hm1 : ((d1 :: d2 :: t).filter (fun d => !pyTruthy d.module)).length = 1
          · rw [dif_pos hm1, dif_pos hm1]
          · rw [dif_neg hm1, dif_neg hm1]
            rcases hf2 : findLatestMinorVersion
                ((d1 :: d2 :: t).filter (fun d => !pyTruthy d.module)) with e | lo2
            · rfl
            · rcases lo2 with _ | latest
              · simp only
                exact default_tail_comm (d1 :: d2 :: t) _
              · rfl
      · rfl

/-- The post-candidate case split of `FindDebuggee` agrees with the
spec's zero/one/many ordering on every candidate list. -/
theorem resolve_tail_comm (pattern : String) (C : List Debuggee) :
    (if h : C.length = 1 then Except.ok (C.get ⟨0, by omega⟩)
     else if C.isEmpty then .error (.noDebuggee (some pattern))
     else match findLatestMinorVersion C with
       | .error e => .error (.valueError e)
       | .ok (some best) => .ok best
       | .ok none => .error (.multipleDebuggees (some pattern) C)) =
    (match C with
     | [] => Except.error (ResolveError.noDebuggee (some pattern))
     | [d] => .ok d
     | _ => match findLatestMinorVersion C with
       | .error e => .error (.valueError e)
       | .ok (some best) => .ok best
       | .ok none => .error (.multipleDebuggees (some pattern) C)) := by
  rcases C with _ | ⟨d, _ | ⟨d2, t⟩⟩ <;> rfl

/-- C3: for a non-empty pattern, `FindDebuggee` implements exactly the
spec's `Resolve` procedure: candidates are the debuggees whose target
ID equals the pattern or whose name the compiled pattern matches, with
a fallback to description matching when that set is empty; one
candidate is returned, zero fail with NoDebuggee carrying the pattern,
and several go through `LatestMinorVersion`, failing with
MultipleDebuggees carrying the full candidate list when no unique
latest exists. -/
theorem c3_find_debuggee (pattern : String) (searchP : String → Bool)
    (ds : List Debuggee) (h : pattern ≠ "") :
    findDebuggee pattern searchP ds = findDebuggeeSpec pattern searchP ds := by
  rw [findDebuggee, findDebuggeeSpec, if_neg h]
  exact resolve_tail_comm pattern _

/-- Witness for C3 at a concrete pattern and debuggee list. -/
theorem c3_find_debuggee_witness :
    findDebuggee "svc" (fun t => t == "svc-default") [⟨"id1", "d", [("module", "svc")]⟩] =
      findDebuggeeSpec "svc" (fun t => t == "svc-default") [⟨"id1", "d", [("module", "svc")]⟩] ∧
    findDebuggee "svc" (fun t => t == "svc-default") [⟨"id1", "d", [("module", "svc")]⟩] =
      .ok ⟨"id1", "d", [("module", "svc")]⟩ := by
  exact ⟨c3_find_debuggee "svc" _ _ (by decide), by decide⟩

/-- Witness for C6 at concrete inputs: classification of a mixed input
list, and an instance of the pattern implication. -/
theorem c6_id_classification_witness :
    ("1234567890123-abcd-1" ∈ exactIds ["xyz-abcd-1", "1234567890123-abcd-1"]) ∧
    breakpointIdPattern "1234567890123456-ffff-12345678" = true := by
  constructor
  · exact (c6_id_classification.1 ["xyz-abcd-1", "1234567890123-abcd-1"]
      "1234567890123-abcd-1").mpr ⟨by decide, by decide⟩
  · exact c6_id_classification.2.1 "1234567890123456-ffff-12345678" (by decide)

/-! ## Claim C4: latest minor version -/

/-- Branch equations for one step of the `_FindLatestMinorVersion`
loop. -/
theorem flmvGo_mismatch (best : Option Debuggee) (bv : Option Int) (nm : String)
    (d : Debuggee) (rest : List Debuggee) (h1 : nm ≠ "") (h2 : nm ≠ Debuggee.name d) :
    flmvGo best bv nm (d :: rest) = .ok none := by
  rw [flmvGo, if_pos ⟨h1, h2⟩]

theorem flmvGo_untruthy (best : Option Debuggee) (bv : Option Int) (nm : String)
    (d : Debuggee) (rest : List Debuggee) (hok : ¬(nm ≠ "" ∧ nm ≠ Debuggee.name d))
    (ht : pyTruthy d.minorversion = false) :
    flmvGo best bv nm (d :: rest) = .ok none := by
  rw [flmvGo, if_neg hok, ht]
  rfl

theorem flmvGo_take (best : Option Debuggee) (bv : Option Int) (nm : String)
    (d : Debuggee) (rest : List Debuggee) (hok : ¬(nm ≠ "" ∧ nm ≠ Debuggee.name d))
    (ht : pyTruthy d.minorversion = true) (mv : Int)
    (hmv : pyInt ((d.minorversion).getD "") = some mv)
    (htk : flmvTake bv mv = true) :
    flmvGo best bv nm (d :: rest) =
      flmvGo (some d) (some mv) (if nm = "" then Debuggee.name d else nm) rest := by
  rw [flmvGo, if_neg hok, ht]
  show (match pyInt ((d.minorversion).getD "") with
    | none => Except.error "invalid literal for int()"
    | some mv =>
      if flmvTake bv mv = true then
        flmvGo (some d) (some mv) (if nm = "" then Debuggee.name d else nm) rest
      else flmvGo best bv (if nm = "" then Debuggee.name d else nm) rest) = _
  rw [hmv]
  show (if flmvTake bv mv = true then
      flmvGo (some d) (some mv) (if nm = "" then Debuggee.name d else nm) rest
    else flmvGo best bv (if nm = "" then Debuggee.name d else nm) rest) = _
  rw [if_pos htk]

theorem flmvGo_keep (best : Option Debuggee) (bv : Option Int) (nm : String)
    (d : Debuggee) (rest : List Debuggee) (hok : ¬(nm ≠ "" ∧ nm ≠ Debuggee.name d))
    (ht : pyTruthy d.minorversion = true) (mv : Int)
    (hmv : pyInt ((d.minorversion).getD "") = some mv)
    (htk : flmvTake bv mv = false) :
    flmvGo best bv nm (d :: rest) =
      flmvGo best bv (if nm = "" then Debuggee.name d else nm) rest := by
  rw [flmvGo, if_neg hok, ht]
  show (match pyInt ((d.minorversion).getD "") with
    | none => Except.error "invalid literal for int()"
    | some mv =>
      if flmvTake bv mv = true then
        flmvGo (some d) (some mv) (if nm = "" then Debuggee.name d else nm) rest
      else flmvGo best bv (if nm = "" then Debuggee.name d else nm) rest) = _
  rw [hmv]
  show (if flmvTake bv mv = true then
      flmvGo (some d) (some mv) (if nm = "" then Debuggee.name d else nm) rest
    else flmvGo best bv (if nm = "" then Debuggee.name d else nm) rest) = _
  rw [if_neg (by rw [htk]; exact Bool.false_ne_true)]

/-- When the truthy label parses, it is the numeric minor version. -/
theorem minorIntVal_of_parse (d : Debuggee) (mv : Int)
    (ht : pyTruthy d.minorversion = true)
    (hmv : pyInt ((d.minorversion).getD "") = some mv) :
    minorIntVal d = mv := by
  cases hms : Debuggee.minorversion d with
  | none => rw [hms] at ht; simp [pyTruthy] at ht
  | some s =>
    rw [hms] at hmv
    have hmv2 : pyInt s = some mv := hmv
    rw [minorIntVal, hms]
    simp only [Option.some_bind]
    rw [hmv2]
    rfl

/-- On an all-good list (all same nonempty name, all truthy parsing
labels) the loop from a coherent state succeeds and returns a maximal
element. -/
theorem flmvGo_all_good : ∀ (rest : List Debuggee) (b : Debuggee) (v : Int) (nm : String),
    nm ≠ "" →
    v = minorIntVal b →
    0 ≤ v →
    (∀ d ∈ rest, pyTruthy d.minorversion = true ∧ Debuggee.name d = nm ∧
      ∃ k : Nat, pyInt ((d.minorversion).getD "") = some (k : Int)) →
    ∃ r, flmvGo (some b) (some v) nm rest = .ok (some r) ∧
      (r = b ∨ r ∈ rest) ∧ minorIntVal b ≤ minorIntVal r ∧
      ∀ d ∈ rest, minorIntVal d ≤ minorIntVal r := by
  intro rest
  induction rest with
  | nil =>
    intro b v nm _ hb _ _
    exact ⟨b, rfl, Or.inl rfl, le_refl _, by simp⟩
  | cons d rest ih =>
    intro b v nm hnm hb hv hall
    obtain ⟨ht, hname, k, hk⟩ := hall d (List.mem_cons_self d rest)
    have hok : ¬(nm ≠ "" ∧ nm ≠ Debuggee.name d) := by
      rintro ⟨-, h2⟩; exact h2 hname.symm
    have hmvd : minorIntVal d = (k : Int) := minorIntVal_of_parse d (k : Int) ht hk
    have hnm2 : (if nm = "" then Debuggee.name d else nm) = nm := if_neg hnm
    by_cases htk : flmvTake (some v) (k : Int) = true
    · have hstep := flmvGo_take (some b) (some v) nm d rest hok ht (k : Int) hk htk
      rw [hnm2] at hstep
      obtain ⟨r, hr, hmem, hge, hrest⟩ := ih d (k : Int) nm hnm hmvd.symm
        (by exact_mod_cast Nat.zero_le k)
        (fun d2 h2 => hall d2 (List.mem_cons_of_mem d h2))
      have hvk : v = 0 ∨ v < (k : Int) := by
        have := htk
        rw [flmvTake] at this
        simpa using this
      have hveq : v ≤ minorIntVal r := by
        rw [hmvd] at hge
        rcases hvk with h0 | hlt
        · rw [h0]
          exact le_trans (by exact_mod_cast Nat.zero_le k) hge
        · exact le_trans (le_of_lt hlt) hge
      refine ⟨r, by rw [hstep]; exact hr, ?_, by rw [← hb]; exact hveq, ?_⟩
      · rcases hmem with rfl | h
        · exact Or.inr (List.mem_cons_self r rest)
        · exact Or.inr (List.mem_cons_of_mem d h)
      · intro d2 hd2
        rcases List.mem_cons.mp hd2 with rfl | h2
        · rw [hmvd] at hge ⊢
          exact hge
        · exact hrest d2 h2
    · have htk' : flmvTake (some v) (k : Int) = false := by
        revert htk; cases flmvTake (some v) (k : Int) <;> simp
      have hstep := flmvGo_keep (some b) (some v) nm d rest hok ht (k : Int) hk htk'
      rw [hnm2] at hstep
      obtain ⟨r, hr, hmem, hge, hrest⟩ := ih b v nm hnm hb hv
        (fun d2 h2 => hall d2 (List.mem_cons_of_mem d h2))
      have hkv : (k : Int) ≤ v := by
        have := htk'
        rw [flmvTake] at this
        simp only [Bool.or_eq_false_iff, beq_eq_false_iff_ne, ne_eq,
          decide_eq_false_iff_not, not_lt] at this
        exact this.2
      refine ⟨r, by rw [hstep]; exact hr, ?_, hge, ?_⟩
      · rcases hmem with rfl | h
        · exact Or.inl rfl
        · exact Or.inr (List.mem_cons_of_mem d h)
      · intro d2 hd2
        rcases List.mem_cons.mp hd2 with rfl | h2
        · rw [hmvd]
          rw [hb] at hkv
          exact le_trans hkv hge
        · exact hrest d2 h2

/-- If some element of the remaining list breaks the all-good condition
(and the truthy labels still parse), the loop returns `None` rather
than an error. -/
theorem flmvGo_bad : ∀ (rest : List Debuggee) (best : Option Debuggee) (bv : Option Int)
    (nm : String), nm ≠ "" →
    (∀ d ∈ rest, pyTruthy d.minorversion = true →
      ∃ k : Nat, pyInt ((d.minorversion).getD "") = some (k : Int)) →
    (¬ ∀ d ∈ rest, pyTruthy d.minorversion = true ∧ Debuggee.name d = nm) →
    flmvGo best bv nm rest = .ok none := by
  intro rest
  induction rest with
  | nil =>
    intro best bv nm _ _ hbad
    exact absurd (by simp) hbad
  | cons d rest ih =>
    intro best bv nm hnm hp hbad
    by_cases h1 : Debuggee.name d = nm
    · by_cases h2 : pyTruthy d.minorversion = true
      · obtain ⟨k, hk⟩ := hp d (List.mem_cons_self d rest) h2
        have hok : ¬(nm ≠ "" ∧ nm ≠ Debuggee.name d) := by
          rintro ⟨-, hx⟩; exact hx h1.symm
        have hnm2 : (if nm = "" then Debuggee.name d else nm) = nm := if_neg hnm
        have hbad2 : ¬ ∀ d2 ∈ rest, pyTruthy d2.minorversion = true ∧
            Debuggee.name d2 = nm := by
          intro hgood
          apply hbad
          intro d2 hd2
          rcases List.mem_cons.mp hd2 with rfl | h
          · exact ⟨h2, h1⟩
          · exact hgood d2 h
        have hrec := ih best bv nm hnm (fun d2 h2 => hp d2 (List.mem_cons_of_mem d h2)) hbad2
        have hrec2 := ih (some d) (some (k : Int)) nm hnm
          (fun d2 h2 => hp d2 (List.mem_cons_of_mem d h2)) hbad2
        by_cases htk : flmvTake bv (k : Int) = true
        · rw [flmvGo_take best bv nm d rest hok h2 (k : Int) hk htk, hnm2]
          exact hrec2
        · have htk' : flmvTake bv (k : Int) = false := by
            revert htk; cases flmvTake bv (k : Int) <;> simp
          rw [flmvGo_keep best bv nm d rest hok h2 (k : Int) hk htk', hnm2]
          exact hrec
      · have h2' : pyTruthy d.minorversion = false := by
          revert h2; cases pyTruthy d.minorversion <;> simp
        exact flmvGo_untruthy best bv nm d rest
          (by rintro ⟨-, hx⟩; exact hx h1.symm) h2'
    · exact flmvGo_mismatch best bv nm d rest hnm (fun he => h1 he.symm)

/-- C4 counterexamples to the claim's side conditions: a present but
zero `minorversion` label `'0'` is truthy as a string, so a singleton
list with label `'0'` does return its debuggee (refuting "non-zero"
required), and an unparsable truthy label makes `int()` raise
`ValueError`, so not "every other case yields no result rather than an
error". -/
theorem c4_counterexample :
    findLatestMinorVersion
        [{ targetId := "w", description := "", labels := [("minorversion", "0")] }] =
      .ok (some { targetId := "w", description := "", labels := [("minorversion", "0")] }) ∧
    minorIntVal { targetId := "w", description := "", labels := [("minorversion", "0")] } = 0 ∧
    findLatestMinorVersion
        [{ targetId := "w", description := "", labels := [("minorversion", "x")] }] =
      .error "invalid literal for int()" := by
  decide

/-- C4 (amended): on lists whose debuggees have nonempty names and
whose truthy `minorversion` labels parse as nonnegative integers,
`_FindLatestMinorVersion` yields a result exactly when the list is
nonempty, every debuggee's `minorversion` label is truthy (as a string,
so `'0'` qualifies), and all debuggees share one name; any result is a
member of the list with numerically maximal minor version.  The spec's
worked example holds: among debuggees named `svc-v1` with labels `3`,
`7`, `1` the one labeled `7` is picked. -/
theorem c4_latest_minor_version :
    (∀ ds : List Debuggee,
      (∀ d ∈ ds, Debuggee.name d ≠ "") →
      (∀ d ∈ ds, pyTruthy d.minorversion = true →
        ∃ k : Nat, pyInt ((d.minorversion).getD "") = some (k : Int)) →
      ((∃ r, findLatestMinorVersion ds = .ok (some r)) ↔
        (ds ≠ [] ∧ (∀ d ∈ ds, pyTruthy d.minorversion = true) ∧
          ∀ d ∈ ds, ∀ d2 ∈ ds, Debuggee.name d = Debuggee.name d2)) ∧
      (∀ r, findLatestMinorVersion ds = .ok (some r) →
        r ∈ ds ∧ ∀ d ∈ ds, minorIntVal d ≤ minorIntVal r)) ∧
    findLatestMinorVersion
        [{ targetId := "a", description := "",
           labels := [("module", "svc"), ("version", "v1"), ("minorversion", "3")] },
         { targetId := "b", description := "",
           labels := [("module", "svc"), ("version", "v1"), ("minorversion", "7")] },
         { targetId := "c", description := "",
           labels := [("module", "svc"), ("version", "v1"), ("minorversion", "1")] }] =
      .ok (some { targetId := "b", description := "",
                  labels := [("module", "svc"), ("version", "v1"),
                             ("minorversion", "7")] }) := by
  refine ⟨?_, by decide⟩
  intro ds hn hp
  cases ds with
  | nil =>
    constructor
    · constructor
      · rintro ⟨r, hr⟩
        exact absurd hr (by simp [findLatestMinorVersion])
      · rintro ⟨hne, -, -⟩
        exact absurd rfl hne
    · intro r hr
      exact absurd hr (by simp [findLatestMinorVersion])
  | cons d0 rest =>
    have hred : findLatestMinorVersion (d0 :: rest) = flmvGo none none "" (d0 :: rest) := rfl
    have hok0 : ¬(("" : String) ≠ "" ∧ ("" : String) ≠ Debuggee.name d0) := by
      rintro ⟨h, -⟩; exact h rfl
    have hname0 : Debuggee.name d0 ≠ "" := hn d0 (List.mem_cons_self d0 rest)
    by_cases ht0 : pyTruthy d0.minorversion = true
    · obtain ⟨k0, hk0⟩ := hp d0 (List.mem_cons_self d0 rest) ht0
      have htk0 : flmvTake none (k0 : Int) = true := rfl
      have hstep := flmvGo_take none none "" d0 rest hok0 ht0 (k0 : Int) hk0 htk0
      have hnm2 : (if ("" : String) = "" then Debuggee.name d0 else "") =
          Debuggee.name d0 := if_pos rfl
      rw [hnm2] at hstep
      have hmv0 : minorIntVal d0 = (k0 : Int) := minorIntVal_of_parse d0 (k0 : Int) ht0 hk0
      by_cases hgood : ∀ d ∈ rest, pyTruthy d.minorversion = true ∧
          Debuggee.name d = Debuggee.name d0
      · obtain ⟨r, hr, hmem, hge, hrest⟩ := flmvGo_all_good rest d0 (k0 : Int)
          (Debuggee.name d0) hname0 hmv0.symm (by exact_mod_cast Nat.zero_le k0)
          (fun d hd => ⟨(hgood d hd).1, (hgood d hd).2,
            hp d (List.mem_cons_of_mem d0 hd) (hgood d hd).1⟩)
        have hnames : ∀ d ∈ d0 :: rest, Debuggee.name d = Debuggee.name d0 := by
          intro d hd
          rcases List.mem_cons.mp hd with rfl | h
          · rfl
          · exact (hgood d h).2
        constructor
        · constructor
          · intro hdum
            refine ⟨List.cons_ne_nil d0 rest, ?_, ?_⟩
            · intro d hd
              rcases List.mem_cons.mp hd with rfl | h
              · exact ht0
              · exact (hgood d h).1
            · intro d hd d2 hd2
              rw [hnames d hd, hnames d2 hd2]
          · intro hdum
            exact ⟨r, by rw [hred, hstep]; exact hr⟩
        · intro r2 hr2
          rw [hred, hstep, hr] at hr2
          have hr2' : r = r2 := by
            simpa using hr2
          subst hr2'
          constructor
          · rcases hmem with rfl | h
            · exact List.mem_cons_self r rest
            · exact List.mem_cons_of_mem d0 h
          · intro d hd
            rcases List.mem_cons.mp hd with rfl | h
            · rw [hmv0]
              rw [hmv0] at hge
              exact hge
            · exact hrest d h
      · have hneg := flmvGo_bad rest (some d0) (some (k0 : Int)) (Debuggee.name d0)
          hname0 (fun d2 h2 => hp d2 (List.mem_cons_of_mem d0 h2)) hgood
        constructor
        · constructor
          · rintro ⟨r, hr⟩
            rw [hred, hstep, hneg] at hr
            exact absurd hr (by simp)
          · rintro ⟨-, hall, hnames⟩
            exfalso
            apply hgood
            intro d hd
            exact ⟨hall d (List.mem_cons_of_mem d0 hd),
              hnames d (List.mem_cons_of_mem d0 hd) d0 (List.mem_cons_self d0 rest)⟩
        · intro r hr
          rw [hred, hstep, hneg] at hr
          exact absurd hr (by simp)
    · have ht0' : pyTruthy d0.minorversion = false := by
        revert ht0; cases pyTruthy d0.minorversion <;> simp
      have hstep := flmvGo_untruthy none none "" d0 rest hok0 ht0'
      constructor
      · constructor
        · rintro ⟨r, hr⟩
          rw [hred, hstep] at hr
          exact absurd hr (by simp)
        · rintro ⟨-, hall, -⟩
          exact absurd (hall d0 (List.mem_cons_self d0 rest)) ht0
      · intro r hr
        rw [hred, hstep] at hr
        exact absurd hr (by simp)

/-- Witness for C4 at the spec's worked example. -/
theorem c4_latest_minor_version_witness :
    { targetId := "b", description := "",
      labels := [("module", "svc"), ("version", "v1"), ("minorversion", "7")] } ∈
      ([{ targetId := "a", description := "",
          labels := [("module", "svc"), ("version", "v1"), ("minorversion", "3")] },
        { targetId := "b", description := "",
          labels := [("module", "svc"), ("version", "v1"), ("minorversion", "7")] },
        { targetId := "c", description := "",
          labels := [("module", "svc"), ("version", "v1"), ("minorversion", "1")] }] :
        List Debuggee) ∧
    ∀ d ∈ ([{ targetId := "a", description := "",
              labels := [("module", "svc"), ("version", "v1"), ("minorversion", "3")] },
            { targetId := "b", description := "",
              labels := [("module", "svc"), ("version", "v1"), ("minorversion", "7")] },
            { targetId := "c", description := "",
              labels := [("module", "svc"), ("version", "v1"), ("minorversion", "1")] }] :
        List Debuggee),
      minorIntVal d ≤ minorIntVal
        { targetId := "b", description := "",
          labels := [("module", "svc"), ("version", "v1"), ("minorversion", "7")] } :=
  (c4_latest_minor_version.1
    [{ targetId := "a", description := "",
       labels := [("module", "svc"), ("version", "v1"), ("minorversion", "3")] },
     { targetId := "b", description := "",
       labels := [("module", "svc"), ("version", "v1"), ("minorversion", "7")] },
     { targetId := "c", description := "",
       labels := [("module", "svc"), ("version", "v1"), ("minorversion", "1")] }]
    (by decide)
    (by
      intro d hd ht
      simp only [List.mem_cons, List.not_mem_nil, or_false] at hd
      rcases hd with rfl | rfl | rfl
      · exact ⟨3, by decide⟩
      · exact ⟨7, by decide⟩
      · exact ⟨1, by decide⟩)).2
    { targetId := "b", description := "",
      labels := [("module", "svc"), ("version", "v1"), ("minorversion", "7")] }
    (by decide)

/-! ## Claim C5 -/

/-- C5 names a real behavior the code does not deliver: a requested
exact ID missing from the filtered listing is indeed fetched by exactly
one `Get` call, but `GetBreakpoint` returns an `AddTargetInfo`-decorated
`_MessageDict`, and `_FilteredDictListWithInfo` then re-decorates it,
calling `all_fields()` on a `_MessageDict`, which raises
`AttributeError` instead of including the breakpoint in the output.
This theorem evaluates the model at such a failing input: exactly one
`Get` call is made for the missing ID, a plain `Get` failure does
propagate, but a successful lookup crashes the whole listing. -/
theorem c5_missing_id_lookup_crashes :
    (listMatchingGetCalls
      (fun i => .ok { id := i, action := none, location := none,
                      logMessageFormat := none, expressions := [] })
      (fun _ _ => false) [] ["1234567890123-abcd-1"] = ["1234567890123-abcd-1"]) ∧
    (listMatchingBreakpoints
      (fun _ => .error (.http "boom"))
      (fun _ _ => false) [] ["1234567890123-abcd-1"] none = .error (.http "boom")) ∧
    (listMatchingBreakpoints
      (fun i => .ok { id := i, action := none, location := none,
                      logMessageFormat := none, expressions := [] })
      (fun _ _ => false) [] ["1234567890123-abcd-1"] none = .error .attributeError) := by
  decide

/-! ## Claim C10 -/

/-- C10 counterexample: the claim says Merge raises whenever the encoded
format holds an unmatched brace outside a substituted token or a `$N`
token with `N >= len(expressions)`.  But on `"\x7b$1\x7d"` with one
expression the literal braces fuse with the substituted group's triple
braces: `re.sub` yields `"\x7b\x7b\x7b\x7b1\x7d\x7d\x7d\x7d"`, which
`format` reads as escaped literal braces around literal `1`, so Merge
returns `"\x7b\x7b1\x7d\x7d"` even though token 1 is out of range and
both braces are unmatched. -/
theorem c10_counterexample :
    dollarTokens "\x7b$1\x7d".toList = [1] ∧
    mergeLogExpressions "\x7b$1\x7d".toList ["a".toList] =
      some "\x7b\x7b1\x7d\x7d".toList := by
  decide

/-- C10 (amended): Merge is genuinely partial.  An unmatched brace alone
makes `format` raise (`"\x7b"` and `"\x7d"` both fail), and on
brace-free encoded formats a successful Merge forces every `$N` token to
satisfy `N < len(expressions)`, so an out-of-range token raises
(`"$1"` with one expression fails); the same failure is reachable
through `AddTargetInfo` on a log breakpoint whose `logMessageFormat`
references an out-of-range index.  The claim's unrestricted "whenever"
is refuted by the counterexample, where literal braces adjacent to a
token neutralize both failure conditions. -/
theorem c10_merge_partial :
    (∀ (enc : List Char), (∀ c ∈ enc, c ≠ '{' ∧ c ≠ '}') →
      ∀ (args : List (List Char)) (r : List Char),
        mergeLogExpressions enc args = some r →
        ∀ t ∈ dollarTokens enc, t < args.length) ∧
    mergeLogExpressions "\x7b".toList [] = none ∧
    mergeLogExpressions "\x7d".toList [] = none ∧
    mergeLogExpressions "$1".toList ["a".toList] = none ∧
    addTargetInfo { id := "bp1", action := some BpAction.log, location := none,
                    logMessageFormat := some "$1", expressions := ["a"] } = none := by
  refine ⟨?_, by decide, by decide, by decide, by decide⟩
  intro enc hbr args r hmerge t ht
  have hsucc : (pyFmtGo args .text .start (subDollar enc)).isSome = true := by
    unfold mergeLogExpressions at hmerge
    cases h : pyFmtGo args .text .start (subDollar enc) with
    | none => rw [h] at hmerge; simp at hmerge
    | some p => rfl
  exact c10_main enc.length enc (Nat.le_refl _) hbr args .start hsucc t ht

/-- Witness for the universal part of the C10 theorem at a concrete
in-range input. -/
theorem c10_merge_partial_witness :
    (∀ c ∈ "a=$0".toList, c ≠ '{' ∧ c ≠ '}') ∧
    mergeLogExpressions "a=$0".toList ["a".toList] = some "a=\x7ba\x7d".toList ∧
    (0 : Nat) ∈ dollarTokens "a=$0".toList ∧
    (0 : Nat) < (["a".toList] : List (List Char)).length :=
  ⟨by decide, by decide, by decide,
    c10_merge_partial.1 "a=$0".toList (by decide) ["a".toList] "a=\x7ba\x7d".toList
      (by decide) 0 (by decide)⟩

end Debug


